import Mathlib

/-!
# Verification of the packcracker card eligibility and valuation pipeline

A shallow embedding of the core pipeline of the `packcracker` repository:

* the per-set eligibility configuration predicates and the play-booster
  filter of the cache script (`scripts/cache-cards.js` variant with
  set-configs, given here as `isInRange`, `isInPlayBoosterByConfig`,
  `isCollectorExclusiveByConfig`, `isCollectorExclusive`,
  `cacheKeepForPlay`, `cacheEligibleForPlay`);
* the retry wrapper around `fetch` (`fetchWithRetry`);
* the browser pipeline (the module-based app variant): treatment labels
  (`getCardTreatment`), finish expansion (`expandCardFinishes`), the
  display filter-group-sort engine (`filterAndSortCards`) and the pack
  expected-value estimator (`calculatePackEV`);
* the two data paths (pre-fetched static cache vs live query) compared by
  the refinement claim (`cachedPathPlay`, `livePathPlay`, `recordsOf`).

Modelling conventions:

* JavaScript numbers that hold card prices are modelled as `ℚ` (all the
  arithmetic the claims touch is exact in binary floating point as well);
  a price field that is `null`/absent is `none`.  Scryfall delivers
  prices as decimal strings and the code guards them with JS truthiness
  before `parseFloat`; an unparseable or empty string would be discarded
  by the `price > 0` guard, so `Option ℚ` presence is an extensionally
  faithful model of that guard chain.
* `parseInt(s, 10)` is modelled by `jsParseInt` (`none` = `NaN`).
* Display-only record fields (name, image URL, detail URL) are omitted:
  no modelled function reads them.
* Network transport (pagination, rate limiting, delays) is abstracted:
  a remote search over the card database is modelled as a filter over a
  `universe : List Card` of candidate printings; the cache script's
  explicit 350-card page cap is modelled with `List.take 350`.
-/

namespace PackCracker

/-! ## JavaScript primitive models -/

/-- Value of a list of decimal digits. -/
def digitsToNat (cs : List Char) : Nat :=
  cs.foldl (fun a c => 10 * a + (c.toNat - 48)) 0

/-- Parse a maximal leading run of decimal digits; `none` when there is
no leading digit (which in JS yields `NaN`). -/
def jsParseDigits (cs : List Char) : Option Nat :=
  let ds := cs.takeWhile Char.isDigit
  if ds.isEmpty then none else some (digitsToNat ds)

/-- Model of JavaScript `parseInt(s, 10)`: skip leading whitespace, read
an optional sign, then a maximal digit prefix; `none` models `NaN`. -/
def jsParseInt (s : String) : Option Int :=
  let cs := s.toList.dropWhile (fun c => c == ' ' || c == '\t' || c == '\n' || c == '\r')
  match cs with
  | '-' :: rest => (jsParseDigits rest).map (fun n => -(n : Int))
  | '+' :: rest => (jsParseDigits rest).map (fun n => (n : Int))
  | _ => (jsParseDigits cs).map (fun n => (n : Int))

/-- ASCII lowercasing of one character (JS `toLowerCase` on the rarity
strings, which are ASCII). -/
def lowerChar (c : Char) : Char :=
  if 65 ≤ c.toNat && c.toNat ≤ 90 then Char.ofNat (c.toNat + 32) else c

/-- Model of `s.toLowerCase()` on ASCII strings. -/
def asciiLower (s : String) : String :=
  String.mk (s.toList.map lowerChar)

def splitOnDashAux : List Char → List Char → List (List Char)
  | [], acc => [acc.reverse]
  | c :: cs, acc =>
    if c == '-' then acc.reverse :: splitOnDashAux cs []
    else splitOnDashAux cs (c :: acc)

/-- Model of JavaScript `s.split('-')`. -/
def splitOnDash (s : String) : List String :=
  (splitOnDashAux s.toList []).map String.mk

/-- Model of JavaScript `s.includes('-')`. -/
def containsDash (s : String) : Bool :=
  s.toList.contains '-'

def listReplaceFirst (pat rep : List Char) : List Char → List Char
  | [] => []
  | c :: cs =>
    if pat.isPrefixOf (c :: cs) then rep ++ (c :: cs).drop pat.length
    else c :: listReplaceFirst pat rep cs

/-- Model of JavaScript `s.replace(pat, rep)` with a string pattern:
replace the first occurrence only. -/
def jsReplaceFirst (s pat rep : String) : String :=
  String.mk (listReplaceFirst pat.toList rep.toList s.toList)

/-! ## Data model

`Card` is the Scryfall-shaped record the browser pipeline consumes.  The
`fromCache` / `fromBonusSheet` / `fromRetroSheet` flags model the
`_fromCache` / `_fromBonusSheet` / `_fromRetroSheet` provenance marks the
app attaches to records from the static cache and the supplementary
pools. -/

structure Card where
  id : String
  set : String
  collector_number : String
  rarity : String
  booster : Bool
  finishes : List String
  usd : Option ℚ
  usd_foil : Option ℚ
  usd_etched : Option ℚ
  frame_effects : List String
  promo_types : List String
  border_color : String
  full_art : Bool
  promo : Bool
  fromCache : Bool
  fromBonusSheet : Bool
  fromRetroSheet : Bool
deriving DecidableEq

/-- Per-set eligibility override table (one entry of `set-configs.json`):
`playBooster` models `playBooster.includeCollectorNumbers` and
`collectorExclusive` models `collectorExclusive.collectorNumbers`; `none`
models an absent field, `some []` a present but empty array (which JS
truthiness treats as present). -/
structure SetConfig where
  playBooster : Option (List String)
  collectorExclusive : Option (List String)
deriving DecidableEq

/-! ## Cache-script eligibility predicates (`isInRange` and friends) -/

/-- `isInRange(cn, rangeStr)`: is collector number `cn` inside a range
string such as `"262-281"` or `"342"`?  `parseInt` failures (`NaN`)
make every comparison false. -/
def isInRange (cn : String) (rangeStr : String) : Bool :=
  match jsParseInt cn with
  | none => false
  | some n =>
    if containsDash rangeStr then
      match jsParseInt ((splitOnDash rangeStr).getD 0 ""),
            jsParseInt ((splitOnDash rangeStr).getD 1 "") with
      | some lo, some hi => lo ≤ n && n ≤ hi
      | _, _ => false
    else
      match jsParseInt rangeStr with
      | some m => n == m
      | none => false

/-- `isInPlayBoosterByConfig(card, setCode)`: `none` models the JS `null`
returned when the set has no `playBooster.includeCollectorNumbers`. -/
def isInPlayBoosterByConfig (cfg : Option SetConfig) (card : Card) : Option Bool :=
  match cfg with
  | none => none
  | some c =>
    match c.playBooster with
    | none => none
    | some ranges => some (ranges.any (fun r => isInRange card.collector_number r))

/-- `isCollectorExclusiveByConfig(card, setCode)`: `none` models the JS
`null` returned when the set has no `collectorExclusive.collectorNumbers`. -/
def isCollectorExclusiveByConfig (cfg : Option SetConfig) (card : Card) : Option Bool :=
  match cfg with
  | none => none
  | some c =>
    match c.collectorExclusive with
    | none => none
    | some ranges => some (ranges.any (fun r => isInRange card.collector_number r))

/-- `isCollectorExclusive(card)`: the generic heuristic — the printing's
promo types intersect the global collector-exclusive promo list, or its
frame effects intersect the global collector-exclusive frame list.
The two lists are configuration inputs (fetched at runtime), so they are
parameters here. -/
def isCollectorExclusive (promosL framesL : List String) (card : Card) : Bool :=
  card.promo_types.any (fun p => promosL.contains p) ||
  card.frame_effects.any (fun f => framesL.contains f)

/-- The hardcoded fallback value of `COLLECTOR_EXCLUSIVE_PROMOS` in the
cache script. -/
def COLLECTOR_EXCLUSIVE_PROMOS : List String :=
  ["fracturefoil", "texturedfoil", "ripplefoil",
   "halofoil", "confettifoil", "galaxyfoil", "surgefoil",
   "raisedfoil", "headliner"]

/-- The hardcoded fallback value of `COLLECTOR_EXCLUSIVE_FRAMES` in the
cache script. -/
def COLLECTOR_EXCLUSIVE_FRAMES : List String :=
  ["inverted", "extendedart"]

/-- `hasSetConfig`: truthiness of
`setConfigs[setCode]?.playBooster?.includeCollectorNumbers` — the guard
under which the cache script applies its client-side play filter at all. -/
def hasSetConfig (cfg : Option SetConfig) : Bool :=
  (cfg.bind (fun c => c.playBooster)).isSome

/-- The per-card play-booster filter callback of the cache script's
`fetchSetCards` (run when `hasSetConfig` holds and the booster type is
not collector): an explicit play-include range wins, then an explicit
collector-exclusive range excludes, otherwise fall back to the upstream
booster flag and the generic heuristic. -/
def cacheKeepForPlay (cfg : Option SetConfig) (promosL framesL : List String)
    (card : Card) : Bool :=
  if isInPlayBoosterByConfig cfg card == some true then true
  else if isCollectorExclusiveByConfig cfg card == some true then false
  else card.booster && !(isCollectorExclusive promosL framesL card)

/-- The eligibility decision `fetchSetCards` of the cache script makes for
a fetched card: the client-side filter runs only when the set has a
`playBooster.includeCollectorNumbers` config and the requested booster
type is not collector; otherwise every fetched card is kept. -/
def cacheEligibleForPlay (cfg : Option SetConfig) (promosL framesL : List String)
    (boosterType : String) (card : Card) : Bool :=
  if hasSetConfig cfg && boosterType != "collector" then
    cacheKeepForPlay cfg promosL framesL card
  else true

/-! ## `fetchWithRetry`

One call attempt can resolve with a 429 status, resolve with another
non-ok status (the code then throws `HTTP <status>`), reject at the
transport level, or succeed with a JSON body (abstracted to `Nat`).
The JS loop is

```
for (let i = 0; i < retries; i++) {
  try {
    const response = await fetch(url);
    if (response.status === 429) { await delay(rateMs); continue; }
    if (!response.ok) throw new Error(...);
    return await response.json();
  } catch (error) {
    if (i === retries - 1) throw error;
    await delay(backMs(i));
  }
}
```

`fetchGo f rateMs backMs i r` runs the loop body with `f` giving the
outcome of each attempt, `i` the current index and `r` the remaining
iterations; it returns the call's result together with the list of sleep
durations performed (in ms).  Falling off the end of the loop returns
`undefined` — a fulfilled promise with no value — modelled `RetryResult.undef`. -/

inductive FetchOutcome where
  /-- the response resolved with HTTP status 429 -/
  | rate : FetchOutcome
  /-- the response resolved with a non-ok, non-429 status -/
  | httpErr : Nat → FetchOutcome
  /-- the fetch itself rejected (network failure) -/
  | netErr : FetchOutcome
  /-- an ok response with a parsed body -/
  | ok : Nat → FetchOutcome
deriving DecidableEq

inductive ThrownErr where
  | http : Nat → ThrownErr
  | net : ThrownErr
deriving DecidableEq

inductive RetryResult where
  /-- the promise fulfilled with a value -/
  | value : Nat → RetryResult
  /-- the promise rejected with a thrown error -/
  | thrown : ThrownErr → RetryResult
  /-- the promise fulfilled with `undefined` (the loop ran out) -/
  | undef : RetryResult
deriving DecidableEq

def fetchGo (f : Nat → FetchOutcome) (rateMs : Nat) (backMs : Nat → Nat) :
    Nat → Nat → RetryResult × List Nat
  | _, 0 => (RetryResult.undef, [])
  | i, r + 1 =>
    match f i with
    | FetchOutcome.ok v => (RetryResult.value v, [])
    | FetchOutcome.rate =>
      let next := fetchGo f rateMs backMs (i + 1) r
      (next.1, rateMs :: next.2)
    | FetchOutcome.httpErr s =>
      if r = 0 then (RetryResult.thrown (ThrownErr.http s), [])
      else
        let next := fetchGo f rateMs backMs (i + 1) r
        (next.1, backMs i :: next.2)
    | FetchOutcome.netErr =>
      if r = 0 then (RetryResult.thrown ThrownErr.net, [])
      else
        let next := fetchGo f rateMs backMs (i + 1) r
        (next.1, backMs i :: next.2)

/-- `fetchWithRetry(url)` of the cache script: default `retries = 3`,
2000 ms sleep on a 429, `500 * (i + 1)` ms backoff after a caught error. -/
def fetchWithRetryScript (f : Nat → FetchOutcome) : RetryResult × List Nat :=
  fetchGo f 2000 (fun i => 500 * (i + 1)) 0 3

/-- `fetchWithRetry(url)` of `app.js`: default `retries = 3`, 1000 ms
sleep on a 429, `100 * (i + 1)` ms backoff after a caught error. -/
def fetchWithRetryApp (f : Nat → FetchOutcome) : RetryResult × List Nat :=
  fetchGo f 1000 (fun i => 100 * (i + 1)) 0 3

/-! ## Treatment labels and finish expansion (`getCardTreatment`,
`expandCardFinishes`) -/

/-- `getCardTreatment(card, isFoil)`: concatenate the applicable labels in
the source's fixed order, or `"Regular"` when none apply. -/
def getCardTreatment (card : Card) (isFoil : Bool) : String :=
  let ts : List String :=
    (if card.frame_effects.contains "showcase" then ["Showcase"] else []) ++
    (if card.frame_effects.contains "extendedart" then ["Extended Art"] else []) ++
    (if card.border_color == "borderless" then ["Borderless"] else []) ++
    (if card.promo then ["Promo"] else []) ++
    (if card.full_art then ["Full Art"] else []) ++
    (if card.frame_effects.contains "etched" then ["Etched"] else []) ++
    (if isFoil then ["Foil"] else []) ++
    (if card.set == "plst" then ["The List"] else []) ++
    (if card.set == "spg" then ["Special Guest"] else [])
  if ts.isEmpty then "Regular" else String.intercalate ", " ts

/-- The `transformTreatment` of the etched entry of `FINISH_TYPES`:
`t => t.replace('Regular', 'Etched') || 'Etched'`. -/
def etchedTreatment (t : String) : String :=
  let r := jsReplaceFirst t "Regular" "Etched"
  if r == "" then "Etched" else r

/-- One expanded (printing, finish) pair.  In JS the entry is the card
object spread together with `price`, `isFoil`, `treatment`, `finishKey`;
here the underlying card is kept whole in `card`. -/
structure Entry where
  card : Card
  price : ℚ
  isFoil : Bool
  treatment : String
  finishKey : String
deriving DecidableEq

/-- The three iterations of the `FINISH_TYPES` loop for one card, in the
source's fixed order nonfoil, foil, etched: emit an entry when the finish
is declared available, its price is present, and the price is positive. -/
def expandCard (card : Card) : List Entry :=
  (if card.finishes.contains "nonfoil" then
    match card.usd with
    | some p =>
      if 0 < p then [⟨card, p, false, getCardTreatment card false, "nonfoil"⟩] else []
    | none => []
  else []) ++
  (if card.finishes.contains "foil" then
    match card.usd_foil with
    | some p =>
      if 0 < p then [⟨card, p, true, getCardTreatment card true, "foil"⟩] else []
    | none => []
  else []) ++
  (if card.finishes.contains "etched" then
    match card.usd_etched with
    | some p =>
      if 0 < p then
        [⟨card, p, false, etchedTreatment (getCardTreatment card false), "etched"⟩]
      else []
    | none => []
  else [])

/-- `expandCardFinishes(cards)`. -/
def expandCardFinishes (cards : List Card) : List Entry :=
  cards.flatMap expandCard

/-! ## The Filter & Group Engine (`filterAndSortCards`) -/

/-- First display filter: `card.price >= minPrice`. -/
def entryKeepPrice (minPrice : ℚ) (e : Entry) : Bool :=
  minPrice ≤ e.price

/-- Second display filter: with `excludeRares`, drop lowercased rarity
`rare` and `mythic`. -/
def entryKeepRares (excludeRares : Bool) (e : Entry) : Bool :=
  if !excludeRares then true
  else asciiLower e.card.rarity != "rare" && asciiLower e.card.rarity != "mythic"

/-- Third display filter: with `excludeFoils`, drop foil entries. -/
def entryKeepFoils (excludeFoils : Bool) (e : Entry) : Bool :=
  if !excludeFoils then true else !e.isFoil

/-- The three chained `.filter` calls of `filterAndSortCards`. -/
def filterEntries (entries : List Entry) (minPrice : ℚ)
    (excludeRares excludeFoils : Bool) : List Entry :=
  ((entries.filter (entryKeepPrice minPrice)).filter
    (entryKeepRares excludeRares)).filter (entryKeepFoils excludeFoils)

/-- One `finishPrices` element of a display group. -/
structure FinishPrice where
  type : String
  price : ℚ
deriving DecidableEq

/-- The finish-price record pushed for one entry:
`{ type: isFoil ? 'foil' : (finishKey === 'etched' ? 'etched' : 'regular'), price }`. -/
def fpOf (e : Entry) : FinishPrice :=
  ⟨if e.isFoil then "foil" else if e.finishKey == "etched" then "etched" else "regular",
   e.price⟩

/-- A display group: the spread card fields (kept whole in `card`), the
representative `treatment` and `isFoil`, the accumulated `finishPrices`,
and the running `maxPrice`. -/
structure Group where
  card : Card
  treatment : String
  isFoil : Bool
  finishPrices : List FinishPrice
  maxPrice : ℚ
deriving DecidableEq

/-- The group freshly created for an entry:
`{ ...card, finishPrices: [], maxPrice: 0 }`. -/
def newGroup (e : Entry) : Group :=
  { card := e.card, treatment := e.treatment, isFoil := e.isFoil,
    finishPrices := [], maxPrice := 0 }

/-- The loop body run on a group for one contributing entry: push the
finish-price record, then on a strictly greater price update `maxPrice`
and take this entry's `treatment` and `isFoil` as the representative. -/
def updateGroup (g : Group) (e : Entry) : Group :=
  let g1 : Group := { g with finishPrices := g.finishPrices ++ [fpOf e] }
  if g1.maxPrice < e.price then
    { g1 with maxPrice := e.price, treatment := e.treatment, isFoil := e.isFoil }
  else g1

/-- Processing one entry against the insertion-ordered group map (a JS
`Map` keyed by `card.id`, modelled as a list in insertion order): create
the group on first sight of the id, then run the loop body on it. -/
def insertEntry : List Group → Entry → List Group
  | [], e => [updateGroup (newGroup e) e]
  | g :: gs, e =>
    if g.card.id == e.card.id then updateGroup g e :: gs
    else g :: insertEntry gs e

/-- Comparator model for `(a, b) => b.price - a.price` on finish prices:
non-increasing price order. -/
def fpDescRel (a b : FinishPrice) : Prop :=
  b.price ≤ a.price

instance : DecidableRel fpDescRel :=
  fun a b => inferInstanceAs (Decidable (b.price ≤ a.price))

instance : IsTotal FinishPrice fpDescRel :=
  ⟨fun a b => le_total b.price a.price⟩

instance : IsTrans FinishPrice fpDescRel :=
  ⟨fun _ _ _ hab hbc => le_trans hbc hab⟩

/-- Comparator model for `(a, b) => b.maxPrice - a.maxPrice` on groups. -/
def groupDescRel (a b : Group) : Prop :=
  b.maxPrice ≤ a.maxPrice

instance : DecidableRel groupDescRel :=
  fun a b => inferInstanceAs (Decidable (b.maxPrice ≤ a.maxPrice))

instance : IsTotal Group groupDescRel :=
  ⟨fun a b => le_total b.maxPrice a.maxPrice⟩

instance : IsTrans Group groupDescRel :=
  ⟨fun _ _ _ hab hbc => le_trans hbc hab⟩

/-- `filterAndSortCards(cards, minPrice, excludeRares, excludeFoils)`:
expand, filter, group by card id, sort each group's finish prices
descending, and sort groups by `maxPrice` descending.  JS
`Array.prototype.sort` is specified to be a stable sort, which makes its
output unique given the comparator; it is modelled by the stable
`List.insertionSort`. -/
def filterAndSortCards (cards : List Card) (minPrice : ℚ)
    (excludeRares excludeFoils : Bool) : List Group :=
  let expanded := expandCardFinishes cards
  let filtered := filterEntries expanded minPrice excludeRares excludeFoils
  let grouped := filtered.foldl insertEntry []
  let sortedInner := grouped.map
    (fun g => { g with finishPrices := g.finishPrices.insertionSort fpDescRel })
  sortedInner.insertionSort groupDescRel

/-! ## Pack expected value (`calculatePackEV`) -/

def RARE_RATE : ℚ := 875 / 1000
def MYTHIC_RATE : ℚ := 125 / 1000
def FOIL_RARE_RATE : ℚ := 10 / 100
def FOIL_MYTHIC_RATE : ℚ := 2 / 100

/-- `new Set(bucket.map(c => c.id)).size || 1`: the number of distinct
card ids in a bucket, with zero replaced by one. -/
def uniqueCount (l : List Entry) : ℚ :=
  let n := ((l.map (fun e => e.card.id)).dedup).length
  if n = 0 then 1 else (n : ℚ)

/-- `calculatePackEV(cards)`: bucket the expanded entries by rarity and
foilness, divide each bucket's fixed slot probability by the bucket's
distinct-card count, and sum `price × probability` over all entries. -/
def calculatePackEV (cards : List Card) : ℚ :=
  let expanded := expandCardFinishes cards
  let nonFoilRares := expanded.filter (fun c => c.card.rarity == "rare" && !c.isFoil)
  let nonFoilMythics := expanded.filter (fun c => c.card.rarity == "mythic" && !c.isFoil)
  let foilRares := expanded.filter (fun c => c.card.rarity == "rare" && c.isFoil)
  let foilMythics := expanded.filter (fun c => c.card.rarity == "mythic" && c.isFoil)
  let uniqueRares := uniqueCount nonFoilRares
  let uniqueMythics := uniqueCount nonFoilMythics
  let uniqueFoilRares := uniqueCount foilRares
  let uniqueFoilMythics := uniqueCount foilMythics
  let ev : ℚ := 0
  let ev := nonFoilRares.foldl (fun acc c => acc + c.price * (RARE_RATE / uniqueRares)) ev
  let ev := nonFoilMythics.foldl (fun acc c => acc + c.price * (MYTHIC_RATE / uniqueMythics)) ev
  let ev := foilRares.foldl (fun acc c => acc + c.price * (FOIL_RARE_RATE / uniqueFoilRares)) ev
  let ev := foilMythics.foldl (fun acc c => acc + c.price * (FOIL_MYTHIC_RATE / uniqueFoilMythics)) ev
  ev

/-! ## The app-side play filter of `fetchSetCards` (module app variant) -/

/-- The filter callback of the app's `fetchSetCards` for non-collector
booster types: cached records, bonus-sheet records, retro-sheet records
and the Special Guests / Big Score sets bypass the generic
collector-exclusive heuristic. -/
def appKeepForPlay (promosL framesL : List String) (card : Card) : Bool :=
  card.fromCache || card.fromBonusSheet || card.fromRetroSheet ||
  card.set == "spg" || card.set == "big" ||
  !(isCollectorExclusive promosL framesL card)

/-- The filter stage of the app's `fetchSetCards`: applied only when the
booster type is not collector. -/
def appPlayFilter (promosL framesL : List String) (boosterType : String)
    (cards : List Card) : List Card :=
  if boosterType != "collector" then cards.filter (appKeepForPlay promosL framesL)
  else cards

/-! ## Derived forms of the engine used in the analysis -/

/-- The three display filters merged into one predicate (the composition
order produced by merging the three chained `.filter` calls). -/
def entryFilter (minPrice : ℚ) (excludeRares excludeFoils : Bool) (e : Entry) : Bool :=
  entryKeepFoils excludeFoils e && entryKeepRares excludeRares e &&
    entryKeepPrice minPrice e

/-- The filtered expansion of a single card. -/
def perCard (minPrice : ℚ) (excludeRares excludeFoils : Bool) (c : Card) : List Entry :=
  (expandCard c).filter (entryFilter minPrice excludeRares excludeFoils)

/-- A card with every field empty (used only as an unreachable default). -/
def emptyCard : Card :=
  { id := "", set := "", collector_number := "", rarity := "", booster := false,
    finishes := [], usd := none, usd_foil := none, usd_etched := none,
    frame_effects := [], promo_types := [], border_color := "", full_art := false,
    promo := false, fromCache := false, fromBonusSheet := false,
    fromRetroSheet := false }

/-- Accumulate the id of one entry into the insertion-ordered key list of
the grouping `Map`. -/
def insKey (ks : List String) (e : Entry) : List String :=
  if e.card.id ∈ ks then ks else ks ++ [e.card.id]

/-- The insertion-ordered key list of the grouping `Map` after processing
a list of entries. -/
def keysOf (l : List Entry) : List String :=
  l.foldl insKey []

/-- The group value the grouping loop builds from the (nonempty) list of
entries sharing one id, in processing order: the group is created from
the first such entry, then every entry (the first included) runs the loop
body. -/
def buildBlock : List Entry → Group
  | [] => newGroup ⟨emptyCard, 0, false, "", ""⟩
  | e :: es => (e :: es).foldl updateGroup (newGroup e)

/-- The entry the loop's strictly-greater maximum update settles on: the
earliest entry of `e0 :: es` attaining the maximum price. -/
def repFold (e0 : Entry) (es : List Entry) : Entry :=
  es.foldl (fun r x => if r.price < x.price then x else r) e0

/-- The group the grouping loop holds for key `i` after processing the
entries `l`: the block fold over the id-`i` subsequence of `l`. -/
def groupFor (l : List Entry) (i : String) : Group :=
  buildBlock (l.filter (fun e => e.card.id == i))

/-- The finished display group of one card: the block fold over the
card's filtered expansion, with its finish prices sorted descending. -/
def sortedBlock (minPrice : ℚ) (excludeRares excludeFoils : Bool) (c : Card) : Group :=
  let b := buildBlock (perCard minPrice excludeRares excludeFoils c)
  ⟨b.card, b.treatment, b.isFoil, b.finishPrices.insertionSort fpDescRel, b.maxPrice⟩

/-! ## The two data paths compared by the refinement claim

Both paths are modelled over the same `universe : List Card` — the full
pool of printings the remote card database would serve.  A remote search
is a filter over the universe: `set:<code>` restricts the set field,
`is:booster` restricts to the upstream booster flag, and the price term
`(usd>=0.5 OR usd_foil>=0.5)` is `priceOK`.  Pagination is a transport
detail; the cache script's explicit stop at 350 accumulated cards is kept
as `List.take 350`, while page granularity is not modelled. -/

/-- The query price disjunction `(usd>=0.5 OR usd_foil>=0.5)`. -/
def priceOK (c : Card) : Bool :=
  (match c.usd with
    | some p => decide (mkRat 1 2 ≤ p)
    | none => false) ||
  (match c.usd_foil with
    | some p => decide (mkRat 1 2 ≤ p)
    | none => false)

/-- The cache script's paged search for one set (no `is:booster` term —
the shape used when the set has a config). -/
def scryfallSetSearch (univ : List Card) (setCode : String) : List Card :=
  (univ.filter (fun c => c.set == setCode && priceOK c)).take 350

/-- The cache script's `fetchSetCards` for a play query on a set with a
set config (`hasSetConfig`): fetch every price-qualifying printing of the
set and apply the client-side config filter. -/
def scriptPlayCards (cfg : Option SetConfig) (promosL framesL : List String)
    (univ : List Card) (setCode : String) : List Card :=
  (scryfallSetSearch univ setCode).filter (cacheKeepForPlay cfg promosL framesL)

/-- One `{type, price}` member of a compact cached record's finish list. -/
structure CachedFinish where
  type : String
  price : ℚ
deriving DecidableEq

/-- The compact per-card record the cache script writes
(`processCard`'s output shape, display-only fields omitted). -/
structure CachedCard where
  id : String
  set : String
  collector_number : String
  rarity : String
  booster : Bool
  showcase : Bool
  extendedart : Bool
  inverted : Bool
  borderless : Bool
  fullart : Bool
  etched : Bool
  promo : Bool
  finishes : List CachedFinish
  promo_types : List String
deriving DecidableEq

/-- The finish list `processCard` builds: one entry per available finish
whose price is present, in the fixed order nonfoil, foil, etched. -/
def processFinishes (c : Card) : List CachedFinish :=
  (if c.finishes.contains "nonfoil" then
    match c.usd with
    | some p => [⟨"nonfoil", p⟩]
    | none => []
  else []) ++
  (if c.finishes.contains "foil" then
    match c.usd_foil with
    | some p => [⟨"foil", p⟩]
    | none => []
  else []) ++
  (if c.finishes.contains "etched" then
    match c.usd_etched with
    | some p => [⟨"etched", p⟩]
    | none => []
  else [])

/-- `processCard(card)`: keep the compact record only when some priced
finish is worth at least $0.50. -/
def processCard (c : Card) : Option CachedCard :=
  if (processFinishes c).any (fun f => decide (mkRat 1 2 ≤ f.price)) then
    some
      { id := c.id
        set := c.set
        collector_number := c.collector_number
        rarity := c.rarity
        booster := c.booster
        showcase := c.frame_effects.contains "showcase"
        extendedart := c.frame_effects.contains "extendedart"
        inverted := c.frame_effects.contains "inverted"
        borderless := c.border_color == "borderless"
        fullart := c.full_art
        etched := c.frame_effects.contains "etched"
        promo := c.promo
        finishes := processFinishes c
        promo_types := c.promo_types }
  else none

/-- `convertCachedCard(card)` of the module app: rebuild a Scryfall-shaped
record from the compact cache record, marking it `_fromCache`. -/
def convertCachedCard (c : CachedCard) : Card :=
  { id := c.id, set := c.set, collector_number := c.collector_number,
    rarity := c.rarity, booster := c.booster,
    finishes := c.finishes.map CachedFinish.type,
    usd := (c.finishes.find? (fun f => f.type == "nonfoil")).map CachedFinish.price,
    usd_foil := (c.finishes.find? (fun f => f.type == "foil")).map CachedFinish.price,
    usd_etched := (c.finishes.find? (fun f => f.type == "etched")).map CachedFinish.price,
    frame_effects :=
      (if c.showcase then ["showcase"] else []) ++
      (if c.extendedart then ["extendedart"] else []) ++
      (if c.etched then ["etched"] else []) ++
      (if c.inverted then ["inverted"] else []),
    promo_types := c.promo_types,
    border_color := if c.borderless then "borderless" else "black",
    full_art := c.fullart, promo := c.promo,
    fromCache := true, fromBonusSheet := false, fromRetroSheet := false }

/-- The `seenIds` dedup of the cache script's `cacheSet`. -/
def dedupById : List CachedCard → List String → List CachedCard
  | [], _ => []
  | c :: cs, seen =>
    if c.id ∈ seen then dedupById cs seen
    else c :: dedupById cs (c.id :: seen)

/-- The `play` array of the static cache file for a config-present set:
the script's play fetch, compacted and deduplicated. -/
def cacheFilePlay (cfg : Option SetConfig) (promosL framesL : List String)
    (univ : List Card) (setCode : String) : List CachedCard :=
  dedupById ((scriptPlayCards cfg promosL framesL univ setCode).filterMap
    processCard) []

/-- The static-cache path of the app's `fetchSetCards` for a play query
with supplementary pools disabled on a plain set: read the cache file,
convert each record, and run the play filter stage (which cached records
bypass). -/
def cachedPathPlay (cfg : Option SetConfig) (promosL framesL : List String)
    (univ : List Card) (setCode : String) : List Card :=
  appPlayFilter promosL framesL "play"
    ((cacheFilePlay cfg promosL framesL univ setCode).map convertCachedCard)

/-- The live path of the app's `fetchSetCards` for the same query: the
`is:booster` search, the client-side generic filter of `fetchLiveCards`,
then the same play filter stage. -/
def livePathPlay (promosL framesL : List String)
    (univ : List Card) (setCode : String) : List Card :=
  appPlayFilter promosL framesL "play"
    ((univ.filter (fun c => c.set == setCode && c.booster && priceOK c)).filter
      (fun c => !(isCollectorExclusive promosL framesL c)))

/-- The normalization the claim compares the two paths under: the
(card id, finish, price) records of a card list's expansion. -/
def recordsOf (cards : List Card) : List (String × String × ℚ) :=
  (expandCardFinishes cards).map (fun e => (e.card.id, e.finishKey, e.price))

/-- The (card id, finish, price) records of one card. -/
def cardRecords (c : Card) : List (String × String × ℚ) :=
  (expandCard c).map (fun e => (e.card.id, e.finishKey, e.price))

/-- The records of a card as a function of its id and its three
finish-gated prices (the price fields masked by finish availability). -/
def gatedRecords (i : String) (un uf ue : Option ℚ) : List (String × String × ℚ) :=
  (match un with
    | some p => if 0 < p then [(i, "nonfoil", p)] else []
    | none => []) ++
  (match uf with
    | some p => if 0 < p then [(i, "foil", p)] else []
    | none => []) ++
  (match ue with
    | some p => if 0 < p then [(i, "etched", p)] else []
    | none => [])

/-! ## Concrete instances used by witnesses and counterexamples -/

/-- A plain rare printing: one nonfoil finish priced $30. -/
def cardRare : Card :=
  { id := "r1", set := "mkm", collector_number := "1", rarity := "rare",
    booster := true, finishes := ["nonfoil"], usd := some 30, usd_foil := none,
    usd_etched := none, frame_effects := [], promo_types := [],
    border_color := "black", full_art := false, promo := false,
    fromCache := false, fromBonusSheet := false, fromRetroSheet := false }

/-- A plain mythic printing: one nonfoil finish priced $20. -/
def cardMythic : Card :=
  { cardRare with id := "m1", rarity := "mythic", usd := some 20 }

/-- Collector number 110, heavily tagged with collector-exclusive promo
and frame tags, not flagged as in a booster. -/
def cardC1 : Card :=
  { cardRare with
    id := "c110"
    collector_number := "110"
    promo_types := ["surgefoil"]
    frame_effects := ["extendedart"]
    booster := false }

/-- A set config whose collector-exclusive ranges are `["100-120"]` but
whose play-booster include ranges also cover collector number 110. -/
def cfgC1 : SetConfig :=
  { playBooster := some ["110"], collectorExclusive := some ["100-120"] }

/-- A printing whose collector number is the non-numeric string `"x"`,
carrying the frame tag `"extendedart"` and flagged as in a booster. -/
def cardC2 : Card :=
  { cardRare with
    id := "c2x"
    collector_number := "x"
    frame_effects := ["extendedart"]
    booster := true }

/-- A set config listing the exact collector number `"x"` under the
play-booster include ranges. -/
def cfgC2 : SetConfig :=
  { playBooster := some ["x"], collectorExclusive := none }

/-- A bonus-sheet printing whose tags match both generic
collector-exclusive lists. -/
def cardC4 : Card :=
  { cardRare with
    id := "b1"
    set := "mar"
    fromBonusSheet := true
    promo_types := ["surgefoil"]
    frame_effects := ["extendedart"] }

/-- A printing with collector number 7 and the frame tag
`"extendedart"`, flagged as in a booster. -/
def cardC2b : Card :=
  { cardRare with
    id := "c2b"
    collector_number := "7"
    frame_effects := ["extendedart"]
    booster := true }

/-- A printing with a foil finish at $10 and an etched finish at $4 and
no nonfoil price. -/
def cardFE : Card :=
  { cardRare with
    id := "fe1"
    finishes := ["foil", "etched"]
    usd := none
    usd_foil := some 10
    usd_etched := some 4
    frame_effects := ["etched"] }

/-- The etched expanded entry of `cardFE`. -/
def entryEtchedFE : Entry :=
  ⟨cardFE, 4, false, "Etched", "etched"⟩

/-- The foil expanded entry of `cardFE`. -/
def entryFoilFE : Entry :=
  ⟨cardFE, 10, true, "Etched, Foil", "foil"⟩

/-- The expanded entry of `cardRare`. -/
def entryRare : Entry :=
  ⟨cardRare, 30, false, "Regular", "nonfoil"⟩

/-- The expanded entry of `cardMythic`. -/
def entryMythic : Entry :=
  ⟨cardMythic, 20, false, "Regular", "nonfoil"⟩

/-- A printing with equal nonfoil and foil prices ($3 each). -/
def cardTie : Card :=
  { cardRare with
    id := "t1"
    finishes := ["nonfoil", "foil"]
    usd := some 3
    usd_foil := some 3 }

/-- The display group built for `cardTie`: the nonfoil entry comes first
in expansion order, so its treatment and foil flag represent the group. -/
def groupTie : Group :=
  ⟨cardTie, "Regular", false, [⟨"regular", 3⟩, ⟨"foil", 3⟩], 3⟩

/-- The display group built for `cardFE`. -/
def groupFE : Group :=
  ⟨cardFE, "Etched, Foil", true, [⟨"foil", 10⟩, ⟨"etched", 4⟩], 10⟩

/-- A printing kept by a config override but invisible to the live path:
set "abc", collector number 5, booster flag false, frame tag
"extendedart", nonfoil price $3. -/
def cardC5 : Card :=
  { cardRare with
    id := "cx5"
    set := "abc"
    collector_number := "5"
    booster := false
    frame_effects := ["extendedart"]
    usd := some 3 }

/-! # Theorems -/

/-! ## Helper lemmas on the range predicates -/

/-- A collector number that parses as an integer and contains no dash
lies in the range given by its own string. -/
theorem isInRange_self (cn : String) (h1 : (jsParseInt cn).isSome)
    (h2 : containsDash cn = false) : isInRange cn cn = true := by
  obtain ⟨n, hn⟩ := Option.isSome_iff_exists.mp h1
  unfold isInRange
  rw [hn, h2]
  simp

/-! ## Helper lemmas on finish expansion -/

/-- Every entry `expandCard` emits carries the expanded card itself, a
positive price, and one of the three (foilness, finish key) shapes of
`FINISH_TYPES`. -/
theorem mem_expandCard {c : Card} {e : Entry} (he : e ∈ expandCard c) :
    e.card = c ∧ 0 < e.price ∧
    ((e.isFoil = false ∧ e.finishKey = "nonfoil") ∨
     (e.isFoil = true ∧ e.finishKey = "foil") ∨
     (e.isFoil = false ∧ e.finishKey = "etched")) := by
  unfold expandCard at he
  rw [List.mem_append, List.mem_append] at he
  rcases he with (he | he) | he <;> (repeat' split at he) <;> simp_all

/-- Every expanded entry has a positive price, is foil exactly when its
finish key is `"foil"`, and originates from one of the input cards. -/
theorem mem_expand_spec {cards : List Card} {e : Entry}
    (he : e ∈ expandCardFinishes cards) :
    0 < e.price ∧ e.isFoil = (e.finishKey == "foil") ∧ e.card ∈ cards := by
  obtain ⟨c, hc, hec⟩ := List.mem_flatMap.mp he
  obtain ⟨hcard, hpos, hcases⟩ := mem_expandCard hec
  refine ⟨hpos, ?_, hcard ▸ hc⟩
  rcases hcases with ⟨h1, h2⟩ | ⟨h1, h2⟩ | ⟨h1, h2⟩ <;> rw [h1, h2] <;> decide

/-! ## C1: explicit collector-exclusive ranges -/

/-- C1 (amended): for a set config whose collector-exclusive ranges are
`["100-120"]` and whose play-booster include ranges are present but do
not match collector number 110, a printing with collector number 110
requested for the play product is excluded by the cache script's
`fetchSetCards`, whatever its promo-type and frame-effect tags (and
whatever its upstream booster flag). -/
theorem c1_config_range_excluded (card : Card) (rs : List String)
    (promosL framesL : List String)
    (hcn : card.collector_number = "110")
    (hrs : ∀ r ∈ rs, isInRange "110" r = false) :
    cacheEligibleForPlay (some ⟨some rs, some ["100-120"]⟩) promosL framesL
      "play" card = false := by
  have hne : (rs.any fun r => isInRange "110" r) = false :=
    List.any_eq_false.mpr (by intro r hr; rw [hrs r hr]; exact Bool.false_ne_true)
  have hpb : isInPlayBoosterByConfig (some ⟨some rs, some ["100-120"]⟩) card
      = some false := by
    unfold isInPlayBoosterByConfig
    rw [hcn]
    exact congrArg some hne
  have hce : isCollectorExclusiveByConfig (some ⟨some rs, some ["100-120"]⟩) card
      = some true := by
    unfold isCollectorExclusiveByConfig
    rw [hcn]
    show some (List.any ["100-120"] fun r => isInRange "110" r) = some true
    decide
  unfold cacheEligibleForPlay
  rw [if_pos (by rfl)]
  unfold cacheKeepForPlay
  rw [hpb, hce]
  rw [if_neg (by decide)]
  rw [if_pos (by decide)]

/-- C1 (counterexample to the claim as stated): when the same set config
also lists 110 under `playBooster.includeCollectorNumbers`, the explicit
play include wins and the printing is kept, not excluded — even though
`collectorExclusive.collectorNumbers = ["100-120"]` and the collector
number is 110. -/
theorem c1_counterexample :
    cacheEligibleForPlay (some cfgC1) COLLECTOR_EXCLUSIVE_PROMOS
      COLLECTOR_EXCLUSIVE_FRAMES "play" cardC1 = true := by decide

/-- C1 witness: the amended theorem applied to a concrete tagged printing
with collector number 110 and an empty play-include list. -/
theorem c1_witness :
    (cardC1.collector_number = "110" ∧
      ∀ r ∈ ([] : List String), isInRange "110" r = false) ∧
    cacheEligibleForPlay (some ⟨some [], some ["100-120"]⟩)
      COLLECTOR_EXCLUSIVE_PROMOS COLLECTOR_EXCLUSIVE_FRAMES "play" cardC1 = false :=
  ⟨⟨by decide, by simp⟩,
    c1_config_range_excluded cardC1 [] COLLECTOR_EXCLUSIVE_PROMOS
      COLLECTOR_EXCLUSIVE_FRAMES (by decide) (by simp)⟩

/-! ## C2: explicit play-booster include ranges vs the generic heuristic -/

/-- C2 (amended): (a) when a set config lists the printing's exact
collector number under `playBooster.includeCollectorNumbers` — and that
collector number parses as an integer and contains no dash — the cache
script includes the printing for the play product whatever its tags;
(b) when the config answers neither range question positively, a printing
carrying the frame tag `"extendedart"` is excluded by the generic
heuristic (with the script's fallback global tag lists). -/
theorem c2_explicit_override :
    (∀ (card : Card) (rs : List String) (ce : Option (List String))
        (promosL framesL : List String),
      card.collector_number ∈ rs →
      (jsParseInt card.collector_number).isSome = true →
      containsDash card.collector_number = false →
      cacheEligibleForPlay (some ⟨some rs, ce⟩) promosL framesL "play" card = true)
    ∧ (∀ (card : Card) (cfg : SetConfig),
      hasSetConfig (some cfg) = true →
      isInPlayBoosterByConfig (some cfg) card ≠ some true →
      isCollectorExclusiveByConfig (some cfg) card ≠ some true →
      "extendedart" ∈ card.frame_effects →
      cacheEligibleForPlay (some cfg) COLLECTOR_EXCLUSIVE_PROMOS
        COLLECTOR_EXCLUSIVE_FRAMES "play" card = false) := by
  constructor
  · intro card rs ce promosL framesL hmem hparse hdash
    have hir : isInRange card.collector_number card.collector_number = true :=
      isInRange_self card.collector_number hparse hdash
    have hany : (rs.any fun r => isInRange card.collector_number r) = true :=
      List.any_eq_true.mpr ⟨card.collector_number, hmem, hir⟩
    have hpb : isInPlayBoosterByConfig (some ⟨some rs, ce⟩) card = some true := by
      unfold isInPlayBoosterByConfig
      exact congrArg some hany
    unfold cacheEligibleForPlay
    rw [if_pos (by rfl)]
    unfold cacheKeepForPlay
    rw [hpb]
    rw [if_pos (by decide)]
  · intro card cfg hcfg hpb hce hframe
    have hpb' : (isInPlayBoosterByConfig (some cfg) card == some true) = false :=
      beq_eq_false_iff_ne.mpr hpb
    have hce' : (isCollectorExclusiveByConfig (some cfg) card == some true) = false :=
      beq_eq_false_iff_ne.mpr hce
    have hexcl : isCollectorExclusive COLLECTOR_EXCLUSIVE_PROMOS
        COLLECTOR_EXCLUSIVE_FRAMES card = true := by
      unfold isCollectorExclusive
      have : (card.frame_effects.any fun f =>
          COLLECTOR_EXCLUSIVE_FRAMES.contains f) = true :=
        List.any_eq_true.mpr ⟨"extendedart", hframe, by decide⟩
      rw [this, Bool.or_true]
    unfold cacheEligibleForPlay
    rw [if_pos (by rw [hcfg]; rfl)]
    unfold cacheKeepForPlay
    rw [hpb', hce']
    simp [hexcl]

/-- C2 (counterexample to the claim as stated): a printing whose exact
collector number string `"x"` is listed under
`playBooster.includeCollectorNumbers` is nevertheless excluded, because
`parseInt("x", 10)` is `NaN` and `isInRange` then rejects every range,
letting the generic heuristic see the `"extendedart"` frame tag. -/
theorem c2_counterexample :
    cacheEligibleForPlay (some cfgC2) COLLECTOR_EXCLUSIVE_PROMOS
      COLLECTOR_EXCLUSIVE_FRAMES "play" cardC2 = false := by decide

/-- C2 witness: part (a) at the tagged printing `cardC1` (collector
number 110 listed exactly, so the override beats its collector-exclusive
tags), part (b) at `cardC2b` (number 7 not in the include ranges, frame
tag `"extendedart"`, excluded). -/
theorem c2_witness :
    cacheEligibleForPlay (some ⟨some ["110"], none⟩) COLLECTOR_EXCLUSIVE_PROMOS
      COLLECTOR_EXCLUSIVE_FRAMES "play" cardC1 = true ∧
    cacheEligibleForPlay (some ⟨some ["5"], none⟩) COLLECTOR_EXCLUSIVE_PROMOS
      COLLECTOR_EXCLUSIVE_FRAMES "play" cardC2b = false :=
  ⟨c2_explicit_override.1 cardC1 ["110"] none COLLECTOR_EXCLUSIVE_PROMOS
      COLLECTOR_EXCLUSIVE_FRAMES (by decide) (by decide) (by decide),
    c2_explicit_override.2 cardC2b ⟨some ["5"], none⟩ (by decide)
      (by decide) (by decide) (by decide)⟩

/-! ## C3: the expected-value scenario -/

/-- C3: for any input pool whose expansion has exactly one non-foil rare
entry priced $30, exactly one non-foil mythic entry priced $20, and no
foil rare or foil mythic entries, `calculatePackEV` returns exactly
$28.75 = 30 × 0.875 + 20 × 0.125. -/
theorem c3_ev_scenario (cards : List Card) (e1 e2 : Entry)
    (hr : (expandCardFinishes cards).filter
        (fun c => c.card.rarity == "rare" && !c.isFoil) = [e1])
    (hm : (expandCardFinishes cards).filter
        (fun c => c.card.rarity == "mythic" && !c.isFoil) = [e2])
    (hfr : (expandCardFinishes cards).filter
        (fun c => c.card.rarity == "rare" && c.isFoil) = [])
    (hfm : (expandCardFinishes cards).filter
        (fun c => c.card.rarity == "mythic" && c.isFoil) = [])
    (hp1 : e1.price = 30) (hp2 : e2.price = 20) :
    calculatePackEV cards = 115 / 4 := by
  unfold calculatePackEV
  simp only [hr, hm, hfr, hfm, uniqueCount, List.map_cons, List.map_nil,
    List.dedup_nil, List.foldl_cons, List.foldl_nil, List.length_nil,
    List.dedup_cons_of_not_mem, List.not_mem_nil, not_false_iff,
    List.length_cons, hp1, hp2]
  norm_num [RARE_RATE, MYTHIC_RATE, FOIL_RARE_RATE, FOIL_MYTHIC_RATE]

/-- C3 witness: the scenario at a concrete two-card pool — one nonfoil
rare at $30 and one nonfoil mythic at $20. -/
theorem c3_witness :
    (expandCardFinishes [cardRare, cardMythic]).filter
        (fun c => c.card.rarity == "rare" && !c.isFoil) = [entryRare] ∧
    calculatePackEV [cardRare, cardMythic] = 115 / 4 :=
  ⟨by decide,
    c3_ev_scenario [cardRare, cardMythic] entryRare entryMythic (by decide)
      (by decide) (by decide) (by decide) (by decide) (by decide)⟩

/-! ## C4: supplementary-pool provenance bypasses the generic heuristic -/

/-- C4: a printing tagged as coming from a supplementary pool — a bonus
sheet, the retro sheet, or the Special Guests / Big Score sets — passes
the app's play filter and is kept by the filter stage, whatever the
global tag lists and whatever its own tags. -/
theorem c4_supplementary_included (promosL framesL : List String) (card : Card)
    (h : card.fromBonusSheet = true ∨ card.fromRetroSheet = true ∨
      card.set = "spg" ∨ card.set = "big") :
    appKeepForPlay promosL framesL card = true ∧
    ∀ cards : List Card, card ∈ cards →
      card ∈ appPlayFilter promosL framesL "play" cards := by
  have hk : appKeepForPlay promosL framesL card = true := by
    unfold appKeepForPlay
    rcases h with h | h | h | h <;> simp [h]
  refine ⟨hk, fun cards hc => ?_⟩
  unfold appPlayFilter
  rw [if_pos (by decide)]
  exact List.mem_filter.mpr ⟨hc, hk⟩

/-- C4 witness: a bonus-sheet printing whose tags match both generic
collector-exclusive fallback lists is still kept. -/
theorem c4_witness :
    cardC4.fromBonusSheet = true ∧
    appKeepForPlay COLLECTOR_EXCLUSIVE_PROMOS COLLECTOR_EXCLUSIVE_FRAMES cardC4 = true ∧
    cardC4 ∈ appPlayFilter COLLECTOR_EXCLUSIVE_PROMOS COLLECTOR_EXCLUSIVE_FRAMES
      "play" [cardC4] :=
  ⟨by decide,
    (c4_supplementary_included COLLECTOR_EXCLUSIVE_PROMOS COLLECTOR_EXCLUSIVE_FRAMES
      cardC4 (Or.inl (by decide))).1,
    (c4_supplementary_included COLLECTOR_EXCLUSIVE_PROMOS COLLECTOR_EXCLUSIVE_FRAMES
      cardC4 (Or.inl (by decide))).2 [cardC4] (List.mem_singleton.mpr rfl)⟩

/-! ## C8: the exclude-foils filter -/

/-- C8: with exclude-foils enabled, the display filter stage drops
exactly the expanded entries whose finish key is `"foil"`, on top of the
minimum-price cut and the optional rare/mythic cut; in particular every
etched entry that passes the other two filters is kept (etched entries
are not foil for this filter). -/
theorem c8_exclude_foils (cards : List Card) (minPrice : ℚ) (excludeRares : Bool) :
    filterEntries (expandCardFinishes cards) minPrice excludeRares true =
      (expandCardFinishes cards).filter
        (fun e => entryKeepPrice minPrice e && entryKeepRares excludeRares e &&
          e.finishKey != "foil") ∧
    ∀ e ∈ expandCardFinishes cards, e.finishKey = "etched" →
      entryKeepPrice minPrice e = true → entryKeepRares excludeRares e = true →
      e ∈ filterEntries (expandCardFinishes cards) minPrice excludeRares true := by
  have heq : filterEntries (expandCardFinishes cards) minPrice excludeRares true =
      (expandCardFinishes cards).filter
        (fun e => entryKeepPrice minPrice e && entryKeepRares excludeRares e &&
          e.finishKey != "foil") := by
    unfold filterEntries
    rw [List.filter_filter, List.filter_filter]
    refine List.filter_congr ?_
    intro e he
    obtain ⟨-, hfoil, -⟩ := mem_expand_spec he
    simp [entryKeepFoils, hfoil, bne, Bool.and_comm, Bool.and_left_comm,
      Bool.and_assoc]
  refine ⟨heq, fun e he hk h1 h2 => ?_⟩
  rw [heq]
  refine List.mem_filter.mpr ⟨he, ?_⟩
  rw [h1, h2, hk]
  decide

/-- C8 witness: for a card with a foil finish at $10 and an etched finish
at $4, with exclude-foils on and minimum price $2, the etched entry is
kept (applied through the theorem) while the foil entry is dropped. -/
theorem c8_witness :
    entryEtchedFE ∈ filterEntries (expandCardFinishes [cardFE]) 2 false true ∧
    entryFoilFE ∈ expandCardFinishes [cardFE] ∧
    entryFoilFE ∉ filterEntries (expandCardFinishes [cardFE]) 2 false true :=
  ⟨(c8_exclude_foils [cardFE] 2 false).2 entryEtchedFE (by decide) (by decide)
      (by decide) (by decide),
    by decide, by decide⟩

/-! ## C6: `fetchWithRetry` exhaustion behaviour -/

/-- C6 (evaluation at the failing input): when every attempt resolves
with HTTP 429, the cache script's `fetchWithRetry` performs its three
bounded attempts with the fixed 2000 ms sleep after each, then falls off
the retry loop and fulfills with `undefined` — it does not reject, so the
underlying failure is not surfaced to the caller. -/
theorem c6_429_exhaustion :
    fetchWithRetryScript (fun _ => FetchOutcome.rate) =
      (RetryResult.undef, [2000, 2000, 2000]) := by decide

/-! ## Grouping machinery: the loop of `filterAndSortCards` in closed form -/

theorem updateGroup_card (g : Group) (e : Entry) : (updateGroup g e).card = g.card := by
  simp only [updateGroup]
  split <;> rfl

theorem foldl_updateGroup_card (es : List Entry) (g : Group) :
    (es.foldl updateGroup g).card = g.card := by
  induction es generalizing g with
  | nil => rfl
  | cons e es ih => rw [List.foldl_cons, ih, updateGroup_card]

theorem buildBlock_card (e : Entry) (es : List Entry) :
    (buildBlock (e :: es)).card = e.card := by
  show ((e :: es).foldl updateGroup (newGroup e)).card = e.card
  rw [List.foldl_cons, foldl_updateGroup_card, updateGroup_card]
  rfl

theorem buildBlock_append (es : List Entry) (x : Entry) (h : es ≠ []) :
    buildBlock (es ++ [x]) = updateGroup (buildBlock es) x := by
  match es, h with
  | e :: es, _ =>
    show buildBlock (e :: (es ++ [x])) = _
    simp only [buildBlock, List.foldl_cons, List.foldl_append, List.foldl_nil]

theorem keysOf_append (l : List Entry) (e : Entry) :
    keysOf (l ++ [e]) = insKey (keysOf l) e := by
  unfold keysOf
  rw [List.foldl_append]
  rfl

theorem mem_keysOf {l : List Entry} {i : String} :
    i ∈ keysOf l ↔ ∃ e ∈ l, e.card.id = i := by
  induction l using List.reverseRecOn with
  | nil => simp [keysOf]
  | append_singleton l e ih =>
    rw [keysOf_append]
    unfold insKey
    split
    case isTrue h =>
      simp only [List.mem_append, List.mem_singleton, ih]
      constructor
      · rintro ⟨x, hx, hid⟩; exact ⟨x, Or.inl hx, hid⟩
      · rintro ⟨x, hx | hx, hid⟩
        · exact ⟨x, hx, hid⟩
        · subst hx; exact ih.mp (hid ▸ h)
    case isFalse h =>
      simp only [List.mem_append, List.mem_singleton, ih]
      constructor
      · rintro (⟨x, hx, hid⟩ | hi)
        · exact ⟨x, Or.inl hx, hid⟩
        · exact ⟨e, Or.inr rfl, hi.symm⟩
      · rintro ⟨x, hx | hx, hid⟩
        · exact Or.inl ⟨x, hx, hid⟩
        · subst hx; exact Or.inr hid.symm

theorem keysOf_nodup (l : List Entry) : (keysOf l).Nodup := by
  induction l using List.reverseRecOn with
  | nil => exact List.nodup_nil
  | append_singleton l e ih =>
    rw [keysOf_append]
    unfold insKey
    split
    case isTrue h => exact ih
    case isFalse h => simp [List.nodup_append, ih, h]


theorem insertEntry_map (ks : List String) (G : String → Group) (e : Entry)
    (hG : ∀ i ∈ ks, (G i).card.id = i) (hnd : ks.Nodup) :
    insertEntry (ks.map G) e =
      if e.card.id ∈ ks then
        ks.map (fun i => if i = e.card.id then updateGroup (G i) e else G i)
      else ks.map G ++ [updateGroup (newGroup e) e] := by
  induction ks with
  | nil => simp [insertEntry]
  | cons k ks ih =>
    have hk : (G k).card.id = k := hG k (List.mem_cons_self k ks)
    have hnd' : ks.Nodup := hnd.of_cons
    have hknot : k ∉ ks := (List.nodup_cons.mp hnd).1
    rw [List.map_cons]
    show insertEntry (G k :: ks.map G) e = _
    unfold insertEntry
    by_cases hek : k = e.card.id
    · subst hek
      rw [if_pos (by rw [hk]; exact beq_self_eq_true _)]
      rw [if_pos (List.mem_cons_self _ _)]
      rw [List.map_cons, if_pos rfl]
      congr 1
      refine (List.map_congr_left fun i hi => ?_).symm
      rw [if_neg]
      intro h
      rw [h] at hi
      exact hknot hi
    · rw [if_neg (by rw [hk]; simp [hek])]
      rw [ih (fun i hi => hG i (List.mem_cons_of_mem k hi)) hnd']
      by_cases hmem : e.card.id ∈ ks
      · rw [if_pos hmem, if_pos (List.mem_cons_of_mem k hmem)]
        rw [List.map_cons, if_neg hek]
      · rw [if_neg hmem, if_neg (by simp [hek, hmem, Ne.symm])]
        rfl


theorem block_card_id (l : List Entry) (i : String) (h : i ∈ keysOf l) :
    (buildBlock (l.filter (fun e => e.card.id == i))).card.id = i := by
  obtain ⟨x, hx, hid⟩ := mem_keysOf.mp h
  have hx' : x ∈ l.filter (fun e => e.card.id == i) :=
    List.mem_filter.mpr ⟨hx, by rw [hid]; exact beq_self_eq_true _⟩
  cases hfl : l.filter (fun e => e.card.id == i) with
  | nil => rw [hfl] at hx'; exact absurd hx' (List.not_mem_nil x)
  | cons e es =>
    rw [hfl] at hx'
    rw [buildBlock_card]
    have he : e ∈ l.filter (fun x => x.card.id == i) := by
      rw [hfl]; exact List.mem_cons_self e es
    exact beq_iff_eq.mp (List.mem_filter.mp he).2

theorem filter_block_ne_nil {l : List Entry} {i : String} (h : i ∈ keysOf l) :
    l.filter (fun e => e.card.id == i) ≠ [] := by
  obtain ⟨x, hx, hid⟩ := mem_keysOf.mp h
  exact List.ne_nil_of_mem
    (List.mem_filter.mpr ⟨hx, by rw [hid]; exact beq_self_eq_true _⟩)

theorem filter_block_nil {l : List Entry} {i : String} (h : i ∉ keysOf l) :
    l.filter (fun e => e.card.id == i) = [] := by
  refine List.filter_eq_nil_iff.mpr fun x hx hbeq => ?_
  exact h (mem_keysOf.mpr ⟨x, hx, beq_iff_eq.mp hbeq⟩)

theorem grouping_canonical (l : List Entry) :
    l.foldl insertEntry [] =
      (keysOf l).map (fun i => buildBlock (l.filter (fun e => e.card.id == i))) := by
  induction l using List.reverseRecOn with
  | nil => rfl
  | append_singleton l e ih =>
    rw [List.foldl_append, List.foldl_cons, List.foldl_nil, ih, keysOf_append]
    rw [insertEntry_map _ _ _ (fun i hi => block_card_id l i hi) (keysOf_nodup l)]
    unfold insKey
    by_cases hmem : e.card.id ∈ keysOf l
    · rw [if_pos hmem, if_pos hmem]
      refine List.map_congr_left fun i hi => ?_
      rw [List.filter_append]
      by_cases hie : i = e.card.id
      · rw [if_pos hie]
        have hfe : [e].filter (fun x => x.card.id == i) = [e] := by
          simp [hie]
        rw [hfe, buildBlock_append _ _ (filter_block_ne_nil hi)]
      · rw [if_neg hie]
        have hfe : [e].filter (fun x => x.card.id == i) = [] := by
          simp
          intro hh
          exact absurd hh.symm hie
        rw [hfe, List.append_nil]
    · rw [if_neg hmem, if_neg hmem, List.map_append]
      congr 1
      · refine List.map_congr_left fun i hi => ?_
        rw [List.filter_append]
        have hfe : [e].filter (fun x => x.card.id == i) = [] := by
          simp
          intro hh
          rw [hh] at hmem
          exact absurd hi hmem
        rw [hfe, List.append_nil]
      · rw [List.map_singleton, List.filter_append, filter_block_nil hmem]
        have hfe : [e].filter (fun x => x.card.id == e.card.id) = [e] := by simp
        rw [List.nil_append, hfe]
        rfl


theorem foldl_update_spec (es : List Entry) (g : Group) (r : Entry)
    (h1 : g.maxPrice = r.price) (h2 : g.treatment = r.treatment)
    (h3 : g.isFoil = r.isFoil) :
    (es.foldl updateGroup g).card = g.card ∧
    (es.foldl updateGroup g).finishPrices = g.finishPrices ++ es.map fpOf ∧
    (es.foldl updateGroup g).maxPrice = (repFold r es).price ∧
    (es.foldl updateGroup g).treatment = (repFold r es).treatment ∧
    (es.foldl updateGroup g).isFoil = (repFold r es).isFoil := by
  induction es generalizing g r with
  | nil => exact ⟨rfl, by simp, h1, h2, h3⟩
  | cons e es ih =>
    rw [List.foldl_cons]
    have hrf : repFold r (e :: es) = repFold (if r.price < e.price then e else r) es := by
      unfold repFold
      rw [List.foldl_cons]
    by_cases hlt : r.price < e.price
    · have hg : updateGroup g e =
          { card := g.card, treatment := e.treatment, isFoil := e.isFoil,
            finishPrices := g.finishPrices ++ [fpOf e], maxPrice := e.price } := by
        simp only [updateGroup]
        rw [if_pos (by simpa [h1] using hlt)]
      rw [hg, hrf, if_pos hlt]
      obtain ⟨hc, hf, hm, ht, hif⟩ := ih
        { card := g.card, treatment := e.treatment, isFoil := e.isFoil,
          finishPrices := g.finishPrices ++ [fpOf e], maxPrice := e.price }
        e rfl rfl rfl
      exact ⟨hc, by rw [hf]; simp, hm, ht, hif⟩
    · have hg : updateGroup g e =
          { card := g.card, treatment := g.treatment, isFoil := g.isFoil,
            finishPrices := g.finishPrices ++ [fpOf e], maxPrice := g.maxPrice } := by
        simp only [updateGroup]
        rw [if_neg (by simpa [h1] using hlt)]
      rw [hg, hrf, if_neg hlt]
      obtain ⟨hc, hf, hm, ht, hif⟩ := ih
        { card := g.card, treatment := g.treatment, isFoil := g.isFoil,
          finishPrices := g.finishPrices ++ [fpOf e], maxPrice := g.maxPrice }
        r h1 h2 h3
      exact ⟨hc, by rw [hf]; simp, hm, ht, hif⟩

theorem buildBlock_spec (e : Entry) (es : List Entry) (hpos : 0 < e.price) :
    (buildBlock (e :: es)).card = e.card ∧
    (buildBlock (e :: es)).finishPrices = (e :: es).map fpOf ∧
    (buildBlock (e :: es)).maxPrice = (repFold e es).price ∧
    (buildBlock (e :: es)).treatment = (repFold e es).treatment ∧
    (buildBlock (e :: es)).isFoil = (repFold e es).isFoil := by
  show ((e :: es).foldl updateGroup (newGroup e)).card = e.card ∧
    ((e :: es).foldl updateGroup (newGroup e)).finishPrices = (e :: es).map fpOf ∧
    ((e :: es).foldl updateGroup (newGroup e)).maxPrice = (repFold e es).price ∧
    ((e :: es).foldl updateGroup (newGroup e)).treatment = (repFold e es).treatment ∧
    ((e :: es).foldl updateGroup (newGroup e)).isFoil = (repFold e es).isFoil
  rw [List.foldl_cons]
  have h0 : updateGroup (newGroup e) e =
      { card := e.card, treatment := e.treatment, isFoil := e.isFoil,
        finishPrices := [fpOf e], maxPrice := e.price } := by
    simp only [updateGroup, newGroup]
    rw [if_pos (by simpa using hpos)]
    simp
  rw [h0]
  obtain ⟨hc, hf, hm, ht, hif⟩ := foldl_update_spec es
    { card := e.card, treatment := e.treatment, isFoil := e.isFoil,
      finishPrices := [fpOf e], maxPrice := e.price } e rfl rfl rfl
  exact ⟨hc, by rw [hf]; simp, hm, ht, hif⟩

theorem repFold_mem (e : Entry) (es : List Entry) : repFold e es ∈ e :: es := by
  induction es generalizing e with
  | nil => exact List.mem_singleton.mpr rfl
  | cons x es ih =>
    have hrf : repFold e (x :: es) = repFold (if e.price < x.price then x else e) es := by
      unfold repFold
      rw [List.foldl_cons]
    by_cases h : e.price < x.price
    · rw [hrf, if_pos h]
      exact List.mem_cons_of_mem e (ih x)
    · rw [hrf, if_neg h]
      rcases List.mem_cons.mp (ih e) with h1 | h1
      · rw [h1]
        exact List.mem_cons_self e (x :: es)
      · exact List.mem_cons_of_mem e (List.mem_cons_of_mem x h1)

theorem repFold_le (e : Entry) (es : List Entry) :
    ∀ x ∈ e :: es, x.price ≤ (repFold e es).price := by
  induction es generalizing e with
  | nil =>
    intro x hx
    rw [List.mem_singleton.mp hx]
    exact le_refl _
  | cons a es ih =>
    intro x hx
    have hrf : repFold e (a :: es) = repFold (if e.price < a.price then a else e) es := by
      unfold repFold
      rw [List.foldl_cons]
    by_cases h : e.price < a.price
    · rw [hrf, if_pos h]
      rcases List.mem_cons.mp hx with h1 | h1
      · rw [h1]
        exact le_trans (le_of_lt h) (ih a a (List.mem_cons_self a es))
      · exact ih a x h1
    · rw [hrf, if_neg h]
      rcases List.mem_cons.mp hx with h1 | h1
      · rw [h1]
        exact ih e e (List.mem_cons_self e es)
      · rcases List.mem_cons.mp h1 with h2 | h2
        · rw [h2]
          exact le_trans (le_of_not_lt h) (ih e e (List.mem_cons_self e es))
        · exact ih e x (List.mem_cons_of_mem e h2)

theorem repFold_first (e : Entry) (es : List Entry) :
    ∃ pre post, e :: es = pre ++ (repFold e es) :: post ∧
      ∀ x ∈ pre, x.price < (repFold e es).price := by
  induction es generalizing e with
  | nil => exact ⟨[], [], rfl, by simp⟩
  | cons a es ih =>
    have hrf : repFold e (a :: es) = repFold (if e.price < a.price then a else e) es := by
      unfold repFold
      rw [List.foldl_cons]
    by_cases h : e.price < a.price
    · obtain ⟨pre, post, hsplit, hpre⟩ := ih a
      rw [hrf, if_pos h]
      refine ⟨e :: pre, post, by rw [List.cons_append, ← hsplit], ?_⟩
      intro x hx
      rcases List.mem_cons.mp hx with h1 | h1
      · rw [h1]
        exact lt_of_lt_of_le h (repFold_le a es a (List.mem_cons_self a es))
      · exact hpre x h1
    · obtain ⟨pre, post, hsplit, hpre⟩ := ih e
      rw [hrf, if_neg h]
      cases pre with
      | nil =>
        rw [List.nil_append] at hsplit
        injection hsplit with he1 he2
        refine ⟨[], a :: es, ?_, by simp⟩
        rw [List.nil_append, ← he1]
      | cons p pre =>
        rw [List.cons_append] at hsplit
        injection hsplit with he1 he2
        have hr : e.price < (repFold e es).price := by
          have hp := hpre p (List.mem_cons_self p pre)
          rw [← he1] at hp
          exact hp
        refine ⟨e :: a :: pre, post, ?_, ?_⟩
        · rw [List.cons_append, List.cons_append, ← he2]
        · intro x hx
          rcases List.mem_cons.mp hx with h1 | h1
          · rw [h1]
            exact hr
          · rcases List.mem_cons.mp h1 with h2 | h2
            · rw [h2]
              exact lt_of_le_of_lt (le_of_not_lt h) hr
            · exact hpre x (List.mem_cons_of_mem p h2)


theorem filterEntries_sub {l : List Entry} {mp : ℚ} {er ef : Bool} {e : Entry}
    (he : e ∈ filterEntries l mp er ef) : e ∈ l :=
  List.mem_of_mem_filter (List.mem_of_mem_filter (List.mem_of_mem_filter he))

theorem mem_filterAndSortCards {cards : List Card} {mp : ℚ} {er ef : Bool} {g : Group}
    (hg : g ∈ filterAndSortCards cards mp er ef) :
    ∃ i ∈ keysOf (filterEntries (expandCardFinishes cards) mp er ef),
      g = { card := (groupFor (filterEntries (expandCardFinishes cards) mp er ef) i).card,
            treatment :=
              (groupFor (filterEntries (expandCardFinishes cards) mp er ef) i).treatment,
            isFoil := (groupFor (filterEntries (expandCardFinishes cards) mp er ef) i).isFoil,
            finishPrices :=
              (groupFor (filterEntries (expandCardFinishes cards) mp er ef)
                i).finishPrices.insertionSort fpDescRel,
            maxPrice :=
              (groupFor (filterEntries (expandCardFinishes cards) mp er ef) i).maxPrice } := by
  simp only [filterAndSortCards] at hg
  have hg2 := (List.perm_insertionSort groupDescRel _).mem_iff.mp hg
  rw [grouping_canonical, List.map_map] at hg2
  obtain ⟨i, hi, hgi⟩ := List.mem_map.mp hg2
  exact ⟨i, hi, hgi.symm⟩

theorem head_of_sorted_max (fps : List FinishPrice) (m : ℚ)
    (hmem : m ∈ fps.map FinishPrice.price)
    (hle : ∀ p ∈ fps.map FinishPrice.price, p ≤ m) :
    Option.map FinishPrice.price (fps.insertionSort fpDescRel).head? = some m := by
  have hperm : List.Perm (fps.insertionSort fpDescRel) fps := List.perm_insertionSort _ _
  have hsorted : (fps.insertionSort fpDescRel).Pairwise fpDescRel :=
    List.sorted_insertionSort _ _
  obtain ⟨z, hz, hzp⟩ := List.mem_map.mp hmem
  have hz' : z ∈ fps.insertionSort fpDescRel := hperm.symm.subset hz
  cases hs : fps.insertionSort fpDescRel with
  | nil => rw [hs] at hz'; exact absurd hz' (List.not_mem_nil z)
  | cons y rest =>
    rw [hs] at hz' hsorted
    have hy : y ∈ fps := hperm.subset (hs ▸ List.mem_cons_self y rest)
    have hy_le : y.price ≤ m := hle y.price (List.mem_map.mpr ⟨y, hy, rfl⟩)
    have hm_le : m ≤ y.price := by
      rcases List.mem_cons.mp hz' with h1 | h1
      · rw [← hzp, h1]
      · rw [← hzp]
        exact (List.pairwise_cons.mp hsorted).1 z h1
    show some y.price = some m
    rw [le_antisymm hy_le hm_le]

/-! ## C7: display-group invariants -/

/-- C7: every display group produced by `filterAndSortCards` has a
non-empty finish-price list sorted in non-increasing price order, and the
group's `maxPrice` equals the price of the first listed finish. -/
theorem c7_group_invariants (cards : List Card) (minPrice : ℚ)
    (excludeRares excludeFoils : Bool) (g : Group)
    (hg : g ∈ filterAndSortCards cards minPrice excludeRares excludeFoils) :
    g.finishPrices ≠ [] ∧
    g.finishPrices.Pairwise (fun a b => b.price ≤ a.price) ∧
    Option.map FinishPrice.price g.finishPrices.head? = some g.maxPrice := by
  obtain ⟨i, hi, hgeq⟩ := mem_filterAndSortCards hg
  cases hfl : (filterEntries (expandCardFinishes cards) minPrice excludeRares
      excludeFoils).filter (fun e => e.card.id == i) with
  | nil => exact absurd hfl (filter_block_ne_nil hi)
  | cons e es =>
    have hpos : ∀ x ∈ e :: es, 0 < x.price := by
      intro x hx
      have hxf : x ∈ (filterEntries (expandCardFinishes cards) minPrice excludeRares
          excludeFoils).filter (fun e => e.card.id == i) := by rw [hfl]; exact hx
      exact (mem_expand_spec (filterEntries_sub (List.mem_of_mem_filter hxf))).1
    obtain ⟨hc, hf, hm, ht, hif⟩ := buildBlock_spec e es (hpos e (List.mem_cons_self e es))
    have hgf : groupFor (filterEntries (expandCardFinishes cards) minPrice excludeRares
        excludeFoils) i = buildBlock (e :: es) := by
      unfold groupFor
      rw [hfl]
    rw [hgf] at hgeq
    rw [hgeq]
    refine ⟨?_, ?_, ?_⟩
    · show (buildBlock (e :: es)).finishPrices.insertionSort fpDescRel ≠ []
      intro hnil
      have hlen : ((e :: es).map fpOf).length = 0 := by
        rw [← (List.perm_insertionSort fpDescRel _).length_eq, ← hf, hnil]
        rfl
      simp at hlen
    · have hsorted := List.sorted_insertionSort fpDescRel
        ((buildBlock (e :: es)).finishPrices)
      exact hsorted
    · show Option.map FinishPrice.price
        ((buildBlock (e :: es)).finishPrices.insertionSort fpDescRel).head? =
        some (buildBlock (e :: es)).maxPrice
      rw [hf, hm]
      refine head_of_sorted_max _ _ ?_ ?_
      · refine List.mem_map.mpr ⟨fpOf (repFold e es), ?_, rfl⟩
        exact List.mem_map.mpr ⟨repFold e es, repFold_mem e es, rfl⟩
      · intro p hp
        obtain ⟨fp, hfp, hfpp⟩ := List.mem_map.mp hp
        obtain ⟨x, hx, hxfp⟩ := List.mem_map.mp hfp
        rw [← hfpp, ← hxfp]
        exact repFold_le e es x hx

/-- C7 witness: the invariants at the concrete two-finish group of
`cardFE` (foil $10, etched $4). -/
theorem c7_witness :
    groupFE ∈ filterAndSortCards [cardFE] 2 false false ∧
    (groupFE.finishPrices ≠ [] ∧
      groupFE.finishPrices.Pairwise (fun a b => b.price ≤ a.price) ∧
      Option.map FinishPrice.price groupFE.finishPrices.head? = some groupFE.maxPrice) :=
  ⟨by decide, c7_group_invariants [cardFE] 2 false false groupFE (by decide)⟩

/-! ## C10: the representative treatment and foil flag on price ties -/

/-- C10: for every display group, the entries contributing to it (the
id-matching filtered entries, in the fixed expansion order) decompose
around one entry `e` such that every earlier contributing entry is
strictly cheaper, no contributing entry is dearer, and the group's
representative treatment, foil flag and `maxPrice` are taken from `e` —
i.e. from the earliest contributing entry attaining the maximum price,
because the loop updates the representative only on a strictly greater
price. -/
theorem c10_representative (cards : List Card) (minPrice : ℚ)
    (excludeRares excludeFoils : Bool) (g : Group)
    (hg : g ∈ filterAndSortCards cards minPrice excludeRares excludeFoils) :
    ∃ e pre post,
      (filterEntries (expandCardFinishes cards) minPrice excludeRares
          excludeFoils).filter (fun x => x.card.id == g.card.id) = pre ++ e :: post ∧
      (∀ x ∈ pre, x.price < e.price) ∧
      (∀ x ∈ pre ++ e :: post, x.price ≤ e.price) ∧
      g.treatment = e.treatment ∧ g.isFoil = e.isFoil ∧ g.maxPrice = e.price := by
  obtain ⟨i, hi, hgeq⟩ := mem_filterAndSortCards hg
  cases hfl : (filterEntries (expandCardFinishes cards) minPrice excludeRares
      excludeFoils).filter (fun e => e.card.id == i) with
  | nil => exact absurd hfl (filter_block_ne_nil hi)
  | cons e es =>
    have hpos : 0 < e.price := by
      have hxf : e ∈ (filterEntries (expandCardFinishes cards) minPrice excludeRares
          excludeFoils).filter (fun x => x.card.id == i) := by
        rw [hfl]; exact List.mem_cons_self e es
      exact (mem_expand_spec (filterEntries_sub (List.mem_of_mem_filter hxf))).1
    obtain ⟨hc, hf, hm, ht, hif⟩ := buildBlock_spec e es hpos
    have hgf : groupFor (filterEntries (expandCardFinishes cards) minPrice excludeRares
        excludeFoils) i = buildBlock (e :: es) := by
      unfold groupFor
      rw [hfl]
    rw [hgf] at hgeq
    have hgid : g.card.id = i := by
      rw [hgeq]
      show (buildBlock (e :: es)).card.id = i
      rw [hc]
      have hef : e ∈ (filterEntries (expandCardFinishes cards) minPrice excludeRares
          excludeFoils).filter (fun x => x.card.id == i) := by
        rw [hfl]; exact List.mem_cons_self e es
      exact beq_iff_eq.mp (List.mem_filter.mp hef).2
    obtain ⟨pre, post, hsplit, hpre⟩ := repFold_first e es
    refine ⟨repFold e es, pre, post, ?_, hpre, ?_, ?_, ?_, ?_⟩
    · rw [hgid, hfl, hsplit]
    · intro x hx
      rw [← hsplit] at hx
      exact repFold_le e es x hx
    · rw [hgeq]
      exact ht
    · rw [hgeq]
      exact hif
    · rw [hgeq]
      exact hm

/-- C10 witness: a card with a nonfoil and a foil finish both priced $3:
the group's representative is the nonfoil entry (treatment `"Regular"`,
`isFoil = false`), because nonfoil precedes foil in expansion order. -/
theorem c10_witness :
    groupTie ∈ filterAndSortCards [cardTie] 2 false false ∧
    groupTie.treatment = "Regular" ∧ groupTie.isFoil = false ∧
    (∃ e pre post,
      (filterEntries (expandCardFinishes [cardTie]) 2 false
          false).filter (fun x => x.card.id == groupTie.card.id) = pre ++ e :: post ∧
      (∀ x ∈ pre, x.price < e.price) ∧
      (∀ x ∈ pre ++ e :: post, x.price ≤ e.price) ∧
      groupTie.treatment = e.treatment ∧ groupTie.isFoil = e.isFoil ∧
      groupTie.maxPrice = e.price) :=
  ⟨by decide, by decide, by decide,
    c10_representative [cardTie] 2 false false groupTie (by decide)⟩

/-! ## Per-card block structure of the engine (used for idempotence) -/

theorem filterEntries_eq (l : List Entry) (mp : ℚ) (er ef : Bool) :
    filterEntries l mp er ef = l.filter (entryFilter mp er ef) := by
  unfold filterEntries entryFilter
  rw [List.filter_filter, List.filter_filter]

theorem mem_perCard {mp : ℚ} {er ef : Bool} {c : Card} {e : Entry}
    (he : e ∈ perCard mp er ef c) : e.card = c ∧ 0 < e.price := by
  have hx := List.mem_of_mem_filter he
  exact ⟨(mem_expandCard hx).1, (mem_expandCard hx).2.1⟩

theorem foldl_insKey_block_mem : ∀ (xs : List Entry) (acc : List String) (j : String),
    (∀ e ∈ xs, e.card.id = j) → j ∈ acc → xs.foldl insKey acc = acc
  | [], _, _, _, _ => rfl
  | x :: xs, acc, j, hall, hj => by
    rw [List.foldl_cons]
    have hx : insKey acc x = acc := by
      unfold insKey
      rw [if_pos (by rw [hall x (List.mem_cons_self x xs)]; exact hj)]
    rw [hx]
    exact foldl_insKey_block_mem xs acc j
      (fun e he => hall e (List.mem_cons_of_mem x he)) hj

theorem foldl_insKey_block_new (xs : List Entry) (acc : List String) (j : String)
    (hall : ∀ e ∈ xs, e.card.id = j) (hj : j ∉ acc) (hne : xs ≠ []) :
    xs.foldl insKey acc = acc ++ [j] := by
  match xs, hne with
  | x :: xs, _ =>
    rw [List.foldl_cons]
    have hxid : x.card.id = j := hall x (List.mem_cons_self x xs)
    have hx : insKey acc x = acc ++ [j] := by
      unfold insKey
      rw [hxid, if_neg hj]
    rw [hx]
    exact foldl_insKey_block_mem xs (acc ++ [j]) j
      (fun e he => hall e (List.mem_cons_of_mem x he))
      (List.mem_append.mpr (Or.inr (List.mem_singleton.mpr rfl)))

theorem foldl_insKey_blocks : ∀ (cards : List Card) (mp : ℚ) (er ef : Bool)
    (acc : List String), (∀ c ∈ cards, c.id ∉ acc) → (cards.map Card.id).Nodup →
    (cards.flatMap (perCard mp er ef)).foldl insKey acc =
      acc ++ (cards.filter (fun c => !(perCard mp er ef c).isEmpty)).map Card.id
  | [], _, _, _, _, _, _ => by simp
  | c :: cs, mp, er, ef, acc, hacc, h => by
    rw [List.flatMap_cons, List.foldl_append]
    have hnd : (cs.map Card.id).Nodup := (List.nodup_cons.mp h).2
    have hcid : c.id ∉ cs.map Card.id := (List.nodup_cons.mp h).1
    by_cases hemp : perCard mp er ef c = []
    · rw [hemp, List.foldl_nil]
      rw [foldl_insKey_blocks cs mp er ef acc
        (fun x hx => hacc x (List.mem_cons_of_mem c hx)) hnd]
      rw [List.filter_cons_of_neg (by simp [hemp])]
    · rw [foldl_insKey_block_new (perCard mp er ef c) acc c.id
        (fun e he => by rw [(mem_perCard he).1]) (hacc c (List.mem_cons_self c cs)) hemp]
      have hacc2 : ∀ x ∈ cs, x.id ∉ acc ++ [c.id] := by
        intro x hx
        rw [List.mem_append, List.mem_singleton]
        rintro (hmem | heq)
        · exact hacc x (List.mem_cons_of_mem c hx) hmem
        · exact hcid (heq ▸ List.mem_map_of_mem Card.id hx)
      rw [foldl_insKey_blocks cs mp er ef (acc ++ [c.id]) hacc2 hnd]
      rw [List.filter_cons_of_pos (by simp [hemp]), List.map_cons, List.append_assoc]
      rfl

theorem keysOf_flatMap (cards : List Card) (mp : ℚ) (er ef : Bool)
    (h : (cards.map Card.id).Nodup) :
    keysOf (cards.flatMap (perCard mp er ef)) =
      (cards.filter (fun c => !(perCard mp er ef c).isEmpty)).map Card.id := by
  unfold keysOf
  rw [foldl_insKey_blocks cards mp er ef [] (by simp) h]
  rfl

theorem filter_flatMap_block (cards : List Card) (mp : ℚ) (er ef : Bool)
    (c : Card) (hc : c ∈ cards) (h : (cards.map Card.id).Nodup) :
    (cards.flatMap (perCard mp er ef)).filter (fun e => e.card.id == c.id) =
      perCard mp er ef c := by
  induction cards with
  | nil => exact absurd hc (List.not_mem_nil c)
  | cons x cs ih =>
    rw [List.flatMap_cons, List.filter_append]
    have hnd : (cs.map Card.id).Nodup := (List.nodup_cons.mp h).2
    have hxid : x.id ∉ cs.map Card.id := (List.nodup_cons.mp h).1
    rcases List.mem_cons.mp hc with heq | hmem
    · subst heq
      rw [List.filter_eq_self.mpr (fun e he => by
        rw [(mem_perCard he).1]; exact beq_self_eq_true _)]
      rw [List.filter_eq_nil_iff.mpr (fun e he hbeq => ?_), List.append_nil]
      obtain ⟨x2, hx2, he2⟩ := List.mem_flatMap.mp he
      have : e.card.id ∈ cs.map Card.id := by
        rw [(mem_perCard he2).1]
        exact List.mem_map_of_mem Card.id hx2
      exact hxid (beq_iff_eq.mp hbeq ▸ this)
    · rw [List.filter_eq_nil_iff.mpr (fun e he hbeq => ?_), List.nil_append]
      · exact ih hmem hnd
      · have hcid : c.id ∈ cs.map Card.id := List.mem_map_of_mem Card.id hmem
        rw [(mem_perCard he).1] at hbeq
        exact hxid (beq_iff_eq.mp hbeq ▸ hcid)

theorem grouping_nodup (cards : List Card) (mp : ℚ) (er ef : Bool)
    (h : (cards.map Card.id).Nodup) :
    (cards.flatMap (perCard mp er ef)).foldl insertEntry [] =
      (cards.filter (fun c => !(perCard mp er ef c).isEmpty)).map
        (fun c => buildBlock (perCard mp er ef c)) := by
  rw [grouping_canonical, keysOf_flatMap cards mp er ef h, List.map_map]
  refine List.map_congr_left fun c hc => ?_
  show buildBlock ((cards.flatMap (perCard mp er ef)).filter
    (fun e => e.card.id == c.id)) = buildBlock (perCard mp er ef c)
  rw [filter_flatMap_block cards mp er ef c (List.mem_of_mem_filter hc) h]

theorem filterAndSortCards_normal (cards : List Card) (mp : ℚ) (er ef : Bool)
    (h : (cards.map Card.id).Nodup) :
    filterAndSortCards cards mp er ef =
      ((cards.filter (fun c => !(perCard mp er ef c).isEmpty)).map
        (sortedBlock mp er ef)).insertionSort groupDescRel := by
  simp only [filterAndSortCards]
  rw [show expandCardFinishes cards = cards.flatMap expandCard from rfl]
  rw [filterEntries_eq, List.filter_flatMap]
  rw [show cards.flatMap (fun a => (expandCard a).filter (entryFilter mp er ef)) =
    cards.flatMap (perCard mp er ef) from rfl]
  rw [grouping_nodup cards mp er ef h, List.map_map]
  rfl

theorem sortedBlock_card {mp : ℚ} {er ef : Bool} {c : Card}
    (h : perCard mp er ef c ≠ []) : (sortedBlock mp er ef c).card = c := by
  unfold sortedBlock
  match hp : perCard mp er ef c, h with
  | e :: es, _ =>
    show (buildBlock (e :: es)).card = c
    rw [buildBlock_card]
    have he : e ∈ perCard mp er ef c := by rw [hp]; exact List.mem_cons_self e es
    exact (mem_perCard he).1

/-! ## C9: idempotence of the Filter & Group Engine -/

/-- C9 (amended): when the input cards have pairwise distinct ids,
re-running `filterAndSortCards` on the cards underlying its own output,
with the same parameters, reproduces the output exactly.  (Feeding a
group back through the engine reads the original card fields preserved by
the object spreads, modelled by `Group.card`.) -/
theorem c9_idempotent (cards : List Card) (mp : ℚ) (er ef : Bool)
    (h : (cards.map Card.id).Nodup) :
    filterAndSortCards ((filterAndSortCards cards mp er ef).map Group.card) mp er ef =
      filterAndSortCards cards mp er ef := by
  have hnf := filterAndSortCards_normal cards mp er ef h
  set cs1 := cards.filter (fun c => !(perCard mp er ef c).isEmpty) with hcs1
  have hcs1ne : ∀ c ∈ cs1, perCard mp er ef c ≠ [] := by
    intro c hc
    have := (List.mem_filter.mp hc).2
    simpa using this
  have hcs1nd : (cs1.map Card.id).Nodup :=
    h.sublist ((List.filter_sublist cards).map Card.id)
  -- out and its underlying cards
  set out := filterAndSortCards cards mp er ef with hout
  have hperm : List.Perm out (cs1.map (sortedBlock mp er ef)) := by
    rw [hnf]
    exact List.perm_insertionSort _ _
  have hmemout : ∀ g ∈ out, ∃ c ∈ cs1, g = sortedBlock mp er ef c := by
    intro g hg
    obtain ⟨c, hc, hgc⟩ := List.mem_map.mp (hperm.subset hg)
    exact ⟨c, hc, hgc.symm⟩
  have hcards2 : List.Perm (out.map Group.card) cs1 := by
    have h1 : List.Perm (out.map Group.card) ((cs1.map (sortedBlock mp er ef)).map Group.card) :=
      hperm.map Group.card
    rw [List.map_map] at h1
    have h2 : cs1.map (Group.card ∘ sortedBlock mp er ef) = cs1 := by
      have h3 : cs1.map (Group.card ∘ sortedBlock mp er ef) = cs1.map id :=
        List.map_congr_left fun c hc => sortedBlock_card (hcs1ne c hc)
      rw [h3, List.map_id]
    rw [h2] at h1
    exact h1
  have hnd2 : ((out.map Group.card).map Card.id).Nodup :=
    ((hcards2.map Card.id).symm).nodup hcs1nd
  -- normal form of the second pass
  rw [filterAndSortCards_normal (out.map Group.card) mp er ef hnd2]
  have hfilter2 : (out.map Group.card).filter
      (fun c => !(perCard mp er ef c).isEmpty) = out.map Group.card := by
    refine List.filter_eq_self.mpr fun c hc => ?_
    obtain ⟨g, hg, hgc⟩ := List.mem_map.mp hc
    obtain ⟨c1, hc1, hgc1⟩ := hmemout g hg
    have : c = c1 := by rw [← hgc, hgc1, sortedBlock_card (hcs1ne c1 hc1)]
    rw [this]
    simp [hcs1ne c1 hc1]
  rw [hfilter2]
  have hmap2 : (out.map Group.card).map (sortedBlock mp er ef) = out := by
    rw [List.map_map]
    have : ∀ g ∈ out, (sortedBlock mp er ef ∘ Group.card) g = g := by
      intro g hg
      obtain ⟨c1, hc1, hgc1⟩ := hmemout g hg
      show sortedBlock mp er ef g.card = g
      rw [hgc1, sortedBlock_card (hcs1ne c1 hc1)]
    calc (out.map (sortedBlock mp er ef ∘ Group.card))
        = out.map id := List.map_congr_left this
      _ = out := List.map_id out
  rw [hmap2]
  have hsorted : out.Pairwise groupDescRel := by
    rw [hnf]
    exact List.sorted_insertionSort _ _
  exact List.Sorted.insertionSort_eq hsorted

/-- C9 (counterexample to the claim as stated): with a duplicated input
card the first pass merges both copies into one group (two finish-price
records), but the group carries a single card object, so the second pass
rebuilds a group with only one finish-price record. -/
theorem c9_counterexample :
    filterAndSortCards ((filterAndSortCards [cardRare, cardRare] 2 false
        false).map Group.card) 2 false false ≠
      filterAndSortCards [cardRare, cardRare] 2 false false := by decide

/-- C9 witness: idempotence at a concrete two-card pool with distinct
ids. -/
theorem c9_witness :
    ([cardRare, cardMythic].map Card.id).Nodup ∧
    filterAndSortCards ((filterAndSortCards [cardRare, cardMythic] 2 false
        false).map Group.card) 2 false false =
      filterAndSortCards [cardRare, cardMythic] 2 false false :=
  ⟨by decide, c9_idempotent [cardRare, cardMythic] 2 false false (by decide)⟩

/-! ## Machinery for the cache/live path comparison -/

theorem processCard_some (c : Card) (hpr : priceOK c = true)
    (hwf1 : c.usd.isSome → c.finishes.contains "nonfoil" = true)
    (hwf2 : c.usd_foil.isSome → c.finishes.contains "foil" = true) :
    ∃ pc, processCard c = some pc := by
  unfold processCard
  have hany : (processFinishes c).any (fun f => decide (mkRat 1 2 ≤ f.price)) = true := by
    unfold priceOK at hpr
    rcases Bool.or_eq_true_iff.mp hpr with h | h
    · cases hu : c.usd with
      | none => rw [hu] at h; exact absurd h (by decide)
      | some p =>
        rw [hu] at h
        refine List.any_eq_true.mpr ⟨⟨"nonfoil", p⟩, ?_, h⟩
        unfold processFinishes
        rw [hwf1 (by rw [hu]; rfl), hu]
        simp
    · cases hu : c.usd_foil with
      | none => rw [hu] at h; exact absurd h (by decide)
      | some p =>
        rw [hu] at h
        refine List.any_eq_true.mpr ⟨⟨"foil", p⟩, ?_, h⟩
        unfold processFinishes
        rw [hwf2 (by rw [hu]; rfl), hu]
        simp
  rw [if_pos hany]
  exact ⟨_, rfl⟩

theorem processCard_id {c : Card} {pc : CachedCard} (hpc : processCard c = some pc) :
    pc.id = c.id := by
  unfold processCard at hpc
  split at hpc
  · cases hpc
    rfl
  · cases hpc

theorem processCard_finishes {c : Card} {pc : CachedCard}
    (hpc : processCard c = some pc) : pc.finishes = processFinishes c := by
  unfold processCard at hpc
  split at hpc
  · cases hpc
    rfl
  · cases hpc

theorem cardRecords_gated (a : Card) :
    cardRecords a = gatedRecords a.id
      (if a.finishes.contains "nonfoil" then a.usd else none)
      (if a.finishes.contains "foil" then a.usd_foil else none)
      (if a.finishes.contains "etched" then a.usd_etched else none) := by
  unfold cardRecords expandCard gatedRecords
  rw [List.map_append, List.map_append]
  congr 1
  · congr 1
    · by_cases hc : "nonfoil" ∈ a.finishes
      · cases hu : a.usd <;> simp [hc, hu, apply_ite]
      · simp [hc]
    · by_cases hc : "foil" ∈ a.finishes
      · cases hu : a.usd_foil <;> simp [hc, hu, apply_ite]
      · simp [hc]
  · by_cases hc : "etched" ∈ a.finishes
    · cases hu : a.usd_etched <;> simp [hc, hu, apply_ite]
    · simp [hc]

theorem gatedProcessed_nonfoil (c : Card) :
    (if ((processFinishes c).map CachedFinish.type).contains "nonfoil" then
      ((processFinishes c).find? (fun f => f.type == "nonfoil")).map CachedFinish.price
    else none) = (if c.finishes.contains "nonfoil" then c.usd else none) := by
  by_cases hn : "nonfoil" ∈ c.finishes <;>
    by_cases hf : "foil" ∈ c.finishes <;>
      by_cases he : "etched" ∈ c.finishes <;>
        cases hu : c.usd <;> cases huf : c.usd_foil <;> cases hue : c.usd_etched <;>
          simp [processFinishes, hn, hf, he, hu, huf, hue]

theorem gatedProcessed_foil (c : Card) :
    (if ((processFinishes c).map CachedFinish.type).contains "foil" then
      ((processFinishes c).find? (fun f => f.type == "foil")).map CachedFinish.price
    else none) = (if c.finishes.contains "foil" then c.usd_foil else none) := by
  by_cases hn : "nonfoil" ∈ c.finishes <;>
    by_cases hf : "foil" ∈ c.finishes <;>
      by_cases he : "etched" ∈ c.finishes <;>
        cases hu : c.usd <;> cases huf : c.usd_foil <;> cases hue : c.usd_etched <;>
          simp [processFinishes, hn, hf, he, hu, huf, hue]

theorem gatedProcessed_etched (c : Card) :
    (if ((processFinishes c).map CachedFinish.type).contains "etched" then
      ((processFinishes c).find? (fun f => f.type == "etched")).map CachedFinish.price
    else none) = (if c.finishes.contains "etched" then c.usd_etched else none) := by
  by_cases hn : "nonfoil" ∈ c.finishes <;>
    by_cases hf : "foil" ∈ c.finishes <;>
      by_cases he : "etched" ∈ c.finishes <;>
        cases hu : c.usd <;> cases huf : c.usd_foil <;> cases hue : c.usd_etched <;>
          simp [processFinishes, hn, hf, he, hu, huf, hue]

theorem cardRecords_convert {c : Card} {pc : CachedCard}
    (hpc : processCard c = some pc) :
    cardRecords (convertCachedCard pc) = cardRecords c := by
  rw [cardRecords_gated (convertCachedCard pc), cardRecords_gated c]
  have hid : (convertCachedCard pc).id = c.id := by
    show pc.id = c.id
    exact processCard_id hpc
  have hfin : (convertCachedCard pc).finishes =
      (processFinishes c).map CachedFinish.type := by
    show pc.finishes.map CachedFinish.type = _
    rw [processCard_finishes hpc]
  have husd : (convertCachedCard pc).usd =
      ((processFinishes c).find? (fun f => f.type == "nonfoil")).map CachedFinish.price := by
    show (pc.finishes.find? (fun f => f.type == "nonfoil")).map CachedFinish.price = _
    rw [processCard_finishes hpc]
  have husdf : (convertCachedCard pc).usd_foil =
      ((processFinishes c).find? (fun f => f.type == "foil")).map CachedFinish.price := by
    show (pc.finishes.find? (fun f => f.type == "foil")).map CachedFinish.price = _
    rw [processCard_finishes hpc]
  have husde : (convertCachedCard pc).usd_etched =
      ((processFinishes c).find? (fun f => f.type == "etched")).map CachedFinish.price := by
    show (pc.finishes.find? (fun f => f.type == "etched")).map CachedFinish.price = _
    rw [processCard_finishes hpc]
  rw [hid, hfin, husd, husdf, husde]
  rw [gatedProcessed_nonfoil c, gatedProcessed_foil c, gatedProcessed_etched c]

theorem dedupById_eq_self : ∀ (cs : List CachedCard) (seen : List String),
    (∀ c ∈ cs, c.id ∉ seen) → (cs.map CachedCard.id).Nodup →
    dedupById cs seen = cs
  | [], _, _, _ => rfl
  | c :: cs, seen, hseen, hnd => by
    unfold dedupById
    rw [if_neg (hseen c (List.mem_cons_self c cs))]
    congr 1
    refine dedupById_eq_self cs (c.id :: seen) ?_ (List.nodup_cons.mp hnd).2
    intro x hx
    rw [List.mem_cons]
    rintro (heq | hmem)
    · exact (List.nodup_cons.mp hnd).1 (heq ▸ List.mem_map_of_mem CachedCard.id hx)
    · exact hseen x (List.mem_cons_of_mem c hx) hmem

theorem filterMap_processCard_ids : ∀ l : List Card,
    ((l.filterMap processCard).map CachedCard.id).Sublist (l.map Card.id)
  | [] => List.Sublist.refl _
  | c :: l => by
    rw [List.filterMap_cons, List.map_cons]
    cases hpc : processCard c with
    | none => exact (filterMap_processCard_ids l).cons c.id
    | some pc =>
      rw [List.map_cons, processCard_id hpc]
      exact (filterMap_processCard_ids l).cons₂ c.id

theorem recordsOf_cons (c : Card) (cs : List Card) :
    recordsOf (c :: cs) = cardRecords c ++ recordsOf cs := by
  unfold recordsOf expandCardFinishes cardRecords
  rw [List.flatMap_cons, List.map_append]

theorem records_roundtrip : ∀ l : List Card,
    (∀ c ∈ l, priceOK c = true) →
    (∀ c ∈ l, (c.usd.isSome → c.finishes.contains "nonfoil" = true) ∧
      (c.usd_foil.isSome → c.finishes.contains "foil" = true)) →
    recordsOf ((l.filterMap processCard).map convertCachedCard) = recordsOf l
  | [], _, _ => rfl
  | c :: l, hpr, hwf => by
    obtain ⟨pc, hpc⟩ := processCard_some c (hpr c (List.mem_cons_self c l))
      (hwf c (List.mem_cons_self c l)).1 (hwf c (List.mem_cons_self c l)).2
    rw [List.filterMap_cons, hpc, List.map_cons, recordsOf_cons, recordsOf_cons]
    rw [cardRecords_convert hpc]
    congr 1
    exact records_roundtrip l (fun x hx => hpr x (List.mem_cons_of_mem c hx))
      (fun x hx => hwf x (List.mem_cons_of_mem c hx))

theorem appKeep_convert (promosL framesL : List String) (pc : CachedCard) :
    appKeepForPlay promosL framesL (convertCachedCard pc) = true := rfl

/-! ## C5: cached path vs live path -/

/-- C5 (amended): for a set with a play-booster config, a play query with
supplementary pools disabled yields the same (id, finish, price) records
through the static-cache path and the live-query path, provided the
universe's printings have distinct ids, price fields are only present for
available finishes, the price-qualifying pool fits the cache script's
350-card page cap, and every price-qualifying printing of the set is
classified identically by the config-based filter and by the generic
booster-flag heuristic the live path uses. -/
theorem c5_path_equivalence (univ : List Card) (setCode : String)
    (pb : List String) (ce : Option (List String)) (promosL framesL : List String)
    (hnodup : (univ.map Card.id).Nodup)
    (hwf : ∀ c ∈ univ, (c.usd.isSome → c.finishes.contains "nonfoil" = true) ∧
      (c.usd_foil.isSome → c.finishes.contains "foil" = true))
    (hlen : (univ.filter (fun c => c.set == setCode && priceOK c)).length ≤ 350)
    (hagree : ∀ c ∈ univ, c.set = setCode → priceOK c = true →
      cacheKeepForPlay (some ⟨some pb, ce⟩) promosL framesL c =
        (c.booster && !(isCollectorExclusive promosL framesL c))) :
    recordsOf (cachedPathPlay (some ⟨some pb, ce⟩) promosL framesL univ setCode) =
      recordsOf (livePathPlay promosL framesL univ setCode) := by
  have htake : scryfallSetSearch univ setCode =
      univ.filter (fun c => c.set == setCode && priceOK c) := by
    unfold scryfallSetSearch
    exact List.take_of_length_le hlen
  have hscript : scriptPlayCards (some ⟨some pb, ce⟩) promosL framesL univ setCode =
      univ.filter (fun c => (c.booster && !(isCollectorExclusive promosL framesL c)) &&
        (c.set == setCode && priceOK c)) := by
    unfold scriptPlayCards
    rw [htake, List.filter_filter]
    refine List.filter_congr fun c hc => ?_
    by_cases hb : (c.set == setCode && priceOK c) = true
    · obtain ⟨h1, h2⟩ := Bool.and_eq_true_iff.mp hb
      rw [hagree c hc (beq_iff_eq.mp h1) h2]
    · have hb' : (c.set == setCode && priceOK c) = false :=
        Bool.eq_false_iff.mpr hb
      rw [hb', Bool.and_false, Bool.and_false]
  have hlive : (univ.filter (fun c => c.set == setCode && c.booster &&
        priceOK c)).filter (fun c => !(isCollectorExclusive promosL framesL c)) =
      univ.filter (fun c => (c.booster && !(isCollectorExclusive promosL framesL c)) &&
        (c.set == setCode && priceOK c)) := by
    rw [List.filter_filter]
    refine List.filter_congr fun c hc => ?_
    cases h1 : (c.set == setCode) <;> cases h2 : c.booster <;>
      cases h3 : priceOK c <;>
        cases h4 : isCollectorExclusive promosL framesL c <;>
          simp [h1, h2, h3, h4]
  have hkeptsub : ∀ c ∈ univ.filter
      (fun c => (c.booster && !(isCollectorExclusive promosL framesL c)) &&
        (c.set == setCode && priceOK c)), c ∈ univ ∧ priceOK c = true ∧
      (!(isCollectorExclusive promosL framesL c)) = true := by
    intro c hc
    obtain ⟨hcu, hcp⟩ := List.mem_filter.mp hc
    obtain ⟨hl, hr⟩ := Bool.and_eq_true_iff.mp hcp
    exact ⟨hcu, (Bool.and_eq_true_iff.mp hr).2, (Bool.and_eq_true_iff.mp hl).2⟩
  unfold cachedPathPlay cacheFilePlay livePathPlay appPlayFilter
  rw [hscript, hlive]
  rw [if_pos (by decide), if_pos (by decide)]
  have hnd2 : (((univ.filter
      (fun c => (c.booster && !(isCollectorExclusive promosL framesL c)) &&
        (c.set == setCode && priceOK c))).filterMap processCard).map
      CachedCard.id).Nodup := by
    refine hnodup.sublist (List.Sublist.trans (filterMap_processCard_ids _) ?_)
    exact (List.filter_sublist univ).map Card.id
  rw [dedupById_eq_self _ [] (by simp) hnd2]
  have hconvfilter : (((univ.filter
      (fun c => (c.booster && !(isCollectorExclusive promosL framesL c)) &&
        (c.set == setCode && priceOK c))).filterMap processCard).map
      convertCachedCard).filter (appKeepForPlay promosL framesL) =
      ((univ.filter
      (fun c => (c.booster && !(isCollectorExclusive promosL framesL c)) &&
        (c.set == setCode && priceOK c))).filterMap processCard).map
      convertCachedCard := by
    refine List.filter_eq_self.mpr fun x hx => ?_
    obtain ⟨pc, _, hxc⟩ := List.mem_map.mp hx
    rw [← hxc]
    exact appKeep_convert promosL framesL pc
  have hlivefilter : (univ.filter
      (fun c => (c.booster && !(isCollectorExclusive promosL framesL c)) &&
        (c.set == setCode && priceOK c))).filter (appKeepForPlay promosL framesL) =
      univ.filter
      (fun c => (c.booster && !(isCollectorExclusive promosL framesL c)) &&
        (c.set == setCode && priceOK c)) := by
    refine List.filter_eq_self.mpr fun x hx => ?_
    have hxe := (hkeptsub x hx).2.2
    unfold appKeepForPlay
    rw [hxe, Bool.or_true]
  rw [hconvfilter, hlivefilter]
  exact records_roundtrip _ (fun c hc => (hkeptsub c hc).2.1)
    (fun c hc => hwf c (hkeptsub c hc).1)

/-- C5 (counterexample to the claim as stated): a printing covered by a
`playBooster.includeCollectorNumbers` override but carrying a false
upstream booster flag (and an `"extendedart"` frame tag) reaches the
cached records yet is absent from the live records — the two paths are
not equivalent in general. -/
theorem c5_counterexample :
    recordsOf (cachedPathPlay (some ⟨some ["5"], none⟩) COLLECTOR_EXCLUSIVE_PROMOS
        COLLECTOR_EXCLUSIVE_FRAMES [cardC5] "abc") ≠
      recordsOf (livePathPlay COLLECTOR_EXCLUSIVE_PROMOS
        COLLECTOR_EXCLUSIVE_FRAMES [cardC5] "abc") := by decide

/-- C5 witness: the two paths agree on a one-card universe whose single
printing is classified identically by both filters. -/
theorem c5_witness :
    (([cardRare].map Card.id).Nodup ∧
      (∀ c ∈ [cardRare], c.set = "mkm" → priceOK c = true →
        cacheKeepForPlay (some ⟨some ([] : List String), none⟩)
          COLLECTOR_EXCLUSIVE_PROMOS COLLECTOR_EXCLUSIVE_FRAMES c =
          (c.booster && !(isCollectorExclusive COLLECTOR_EXCLUSIVE_PROMOS
            COLLECTOR_EXCLUSIVE_FRAMES c)))) ∧
    recordsOf (cachedPathPlay (some ⟨some [], none⟩) COLLECTOR_EXCLUSIVE_PROMOS
        COLLECTOR_EXCLUSIVE_FRAMES [cardRare] "mkm") =
      recordsOf (livePathPlay COLLECTOR_EXCLUSIVE_PROMOS
        COLLECTOR_EXCLUSIVE_FRAMES [cardRare] "mkm") :=
  ⟨⟨by decide, by decide⟩,
    c5_path_equivalence [cardRare] "mkm" [] none COLLECTOR_EXCLUSIVE_PROMOS
      COLLECTOR_EXCLUSIVE_FRAMES (by decide) (by decide) (by decide) (by decide)⟩

end PackCracker
